import Mathlib

/-!
# go-ping-sweep: a verification development over `main.go`

The development embeds the ping-sweep program in Lean:

* Go strings are lists of characters (`Str`);
* `netip.Addr` values are `Addr`;
* the retry loop of `pingSweep` is a function producing the ordered list of
  actions it performs;
* `parallelPingSweep` is a transition system over the main goroutine, the
  worker goroutines, the two buffered channels and the `sync.WaitGroup`,
  driven by an explicit schedule.
-/

namespace PingSweep

/-- Go strings, as the sequence of their characters. -/
abbrev Str := List Char

/-- A `netip.Addr`: an IPv4 address given by its four octets, or an IPv6
address kept as the text it was parsed from. -/
inductive Addr where
  | v4 (a b c d : Nat)
  | v6 (text : Str)
  deriving DecidableEq, Repr

/-- The observable things a worker does for one address inside the retry loop
of `pingSweep`: a call `probeOnce(sweepIPv4)` (with its 1-based attempt number
and the value it returned), a `time.Sleep` of the given number of
milliseconds, and the send `resultChan <- sweepIPv4`. -/
inductive Action where
  | probe (a : Addr) (attempt : Nat) (ok : Bool)
  | sleep (ms : Nat)
  | send (a : Addr)
  deriving DecidableEq, Repr

/-- The loop `for count := 0; count < 2; count++ { ... }` of `pingSweep`
(main.go 156-162), started at `count` with `remaining = 2 - count` iterations
left: a successful probe sends the address and breaks, a failed probe is
followed by `time.Sleep(300 * time.Millisecond)` and the next iteration. -/
def retryFrom (probeOnce : Addr → Nat → Bool) (sweepIPv4 : Addr) : Nat → Nat → List Action
  | 0, _ => []
  | remaining + 1, count =>
    if probeOnce sweepIPv4 (count + 1) then
      [Action.probe sweepIPv4 (count + 1) true, Action.send sweepIPv4]
    else
      Action.probe sweepIPv4 (count + 1) false :: Action.sleep 300 ::
        retryFrom probeOnce sweepIPv4 remaining (count + 1)

/-- The body of `for sweepIPv4 := range ipv4RangeChan` in `pingSweep`: the
retry loop run from `count = 0`. -/
def retryLoop (probeOnce : Addr → Nat → Bool) (sweepIPv4 : Addr) : List Action :=
  retryFrom probeOnce sweepIPv4 2 0

/-- The function `pingSweep` seen from one worker: the actions it performs when
the addresses it takes from `ipv4RangeChan` are `received`, in that order. -/
def pingSweep (probeOnce : Addr → Nat → Bool) (received : List Addr) : List Action :=
  received.flatMap (retryLoop probeOnce)

/-- Number of `probeOnce` calls in a list of actions. -/
def attempts (l : List Action) : Nat :=
  (l.filter fun x => match x with | Action.probe _ _ _ => true | _ => false).length

/-- Number of `probeOnce` calls that returned false. -/
def failedAttempts (l : List Action) : Nat :=
  (l.filter fun x => match x with | Action.probe _ _ false => true | _ => false).length

/-- Number of `time.Sleep` calls in a list of actions. -/
def sleeps (l : List Action) : Nat :=
  (l.filter fun x => match x with | Action.sleep _ => true | _ => false).length

/-- The addresses sent to `resultChan`, in order. -/
def sent (l : List Action) : List Addr :=
  l.filterMap fun x => match x with | Action.send a => some a | _ => none

/-! ## The worker pool of `parallelPingSweep` as a transition system -/

/-- Whether the prober answers for an address within the two attempts. -/
def responds (probeOnce : Addr → Nat → Bool) (a : Addr) : Bool :=
  probeOnce a 1 || probeOnce a 2

/-- A goroutine running `pingSweep`: waiting at `range ipv4RangeChan`, inside
the retry loop with the actions still to perform for the current address, or
returned (after the deferred `wg.Done()`). -/
inductive Worker where
  | receiving
  | running (script : List Action)
  | exited
  deriving DecidableEq, Repr

/-- The actions a worker still has to perform for its current address. -/
def Worker.script : Worker → List Action
  | Worker.running l => l
  | _ => []

/-- One if the worker has not returned yet, zero otherwise. -/
def Worker.alive : Worker → Nat
  | Worker.exited => 0
  | _ => 1

/-- Where the main goroutine stands inside `parallelPingSweep`: in the loop
that starts the workers (main.go 182-185), in the loop that fills
`ipv4RangeChan` (188-190, followed by `close(ipv4RangeChan)`), at `wg.Wait()`,
at `close(resultChan)`, in the loop that prints `resultChan` (196-198), or
past it. -/
inductive MainPC where
  | spawning (count : Nat)
  | queueing (rest : List Addr)
  | waiting
  | closingResults
  | draining
  | finished
  deriving DecidableEq, Repr

/-- What the workers did, in the order it happened: worker `worker` took an
address from `ipv4RangeChan`, or performed an action of its retry loop. -/
inductive Event where
  | recv (worker : Nat) (a : Addr)
  | did (worker : Nat) (x : Action)
  deriving DecidableEq, Repr

/-- The state of one call of `parallelPingSweep`. `stdout` holds the addresses
printed as responding; `trace` is the log of what the workers did; `panicked`
records a Go runtime panic (send on a closed channel, negative WaitGroup
counter). -/
structure State where
  pc : MainPC
  workers : List Worker
  wg : Nat
  ipv4RangeChan : List Addr
  rangeClosed : Bool
  resultChan : List Addr
  resultClosed : Bool
  stdout : List Addr
  trace : List Event
  panicked : Bool
  deriving Repr

/-- The state at the entry of `parallelPingSweep`, both channels just made. -/
def init : State :=
  { pc := MainPC.spawning 0, workers := [], wg := 0, ipv4RangeChan := [],
    rangeClosed := false, resultChan := [], resultClosed := false, stdout := [],
    trace := [], panicked := false }

/-- The goroutines: the caller of `parallelPingSweep` and the workers, numbered
in the order they were started. -/
inductive Tid where
  | main
  | worker (i : Nat)
  deriving DecidableEq, Repr

/-- One step of the main goroutine; `none` when it is blocked (channel full,
WaitGroup counter not zero) or has returned. Both channels have capacity
`len(ipv4Range)`. -/
def mainStep (threads : Int) (ipv4Range : List Addr) (s : State) : Option State :=
  match s.pc with
  | MainPC.spawning count =>
    if (count : Int) < threads then
      some { s with pc := MainPC.spawning (count + 1), wg := s.wg + 1,
                    workers := s.workers ++ [Worker.receiving] }
    else
      some { s with pc := MainPC.queueing ipv4Range }
  | MainPC.queueing (ipv4 :: rest) =>
    if s.ipv4RangeChan.length < ipv4Range.length then
      some { s with pc := MainPC.queueing rest, ipv4RangeChan := s.ipv4RangeChan ++ [ipv4] }
    else none
  | MainPC.queueing [] => some { s with pc := MainPC.waiting, rangeClosed := true }
  | MainPC.waiting => if s.wg = 0 then some { s with pc := MainPC.closingResults } else none
  | MainPC.closingResults => some { s with pc := MainPC.draining, resultClosed := true }
  | MainPC.draining =>
    match s.resultChan with
    | ipv4 :: rest => some { s with resultChan := rest, stdout := s.stdout ++ [ipv4] }
    | [] => if s.resultClosed then some { s with pc := MainPC.finished } else none
  | MainPC.finished => none

/-- Worker `i` performs the next action `x` of its retry loop, `rest` being what
follows. A send blocks while `resultChan` is full and panics when it is
closed. -/
def perform (capacity : Nat) (i : Nat) (x : Action) (rest : List Action) (s : State) :
    Option State :=
  match x with
  | Action.send a =>
    if s.resultClosed then some { s with panicked := true }
    else if s.resultChan.length < capacity then
      some { s with resultChan := s.resultChan ++ [a],
                    workers := s.workers.set i (Worker.running rest),
                    trace := s.trace ++ [Event.did i (Action.send a)] }
    else none
  | x =>
    some { s with workers := s.workers.set i (Worker.running rest),
                  trace := s.trace ++ [Event.did i x] }

/-- One step of worker `i`; `none` when it is blocked, has returned or was
never started. At `range ipv4RangeChan` it takes the head of the channel, or
returns through `wg.Done()` when the channel is closed and empty. -/
def workerStep (probeOnce : Addr → Nat → Bool) (capacity : Nat) (i : Nat) (s : State) :
    Option State :=
  match s.workers[i]? with
  | none => none
  | some Worker.exited => none
  | some Worker.receiving =>
    match s.ipv4RangeChan with
    | sweepIPv4 :: rest =>
      some { s with ipv4RangeChan := rest,
                    workers := s.workers.set i (Worker.running (retryLoop probeOnce sweepIPv4)),
                    trace := s.trace ++ [Event.recv i sweepIPv4] }
    | [] =>
      if s.rangeClosed then
        if s.wg = 0 then some { s with panicked := true }
        else some { s with workers := s.workers.set i Worker.exited, wg := s.wg - 1 }
      else none
  | some (Worker.running []) => some { s with workers := s.workers.set i Worker.receiving }
  | some (Worker.running (x :: rest)) => perform capacity i x rest s

/-- One step of the goroutine `t`. Nothing runs after a panic. -/
def step (probeOnce : Addr → Nat → Bool) (threads : Int) (ipv4Range : List Addr)
    (t : Tid) (s : State) : Option State :=
  if s.panicked then none
  else
    match t with
    | Tid.main => mainStep threads ipv4Range s
    | Tid.worker i => workerStep probeOnce ipv4Range.length i s

/-- Runs the goroutines in the order given by the schedule; `none` when the
schedule picks a goroutine that cannot move. -/
def run (probeOnce : Addr → Nat → Bool) (threads : Int) (ipv4Range : List Addr) :
    List Tid → State → Option State
  | [], s => some s
  | t :: ts, s => (step probeOnce threads ipv4Range t s).bind (run probeOnce threads ipv4Range ts)

/-- The states `parallelPingSweep` can be in, over all schedules. -/
def Reachable (probeOnce : Addr → Nat → Bool) (threads : Int) (ipv4Range : List Addr)
    (s : State) : Prop :=
  ∃ schedule, run probeOnce threads ipv4Range schedule init = some s

/-- Go's `int` on a 64-bit platform: the value wraps into [-2^63, 2^63). -/
def wrapInt (x : Int) : Int :=
  (x + 2 ^ 63) % 2 ^ 64 - 2 ^ 63

/-- The value of `threads := min(254, runtime.NumCPU()*20)` (main.go 179). -/
def threads (numCPU : Int) : Int :=
  min 254 (wrapInt (numCPU * 20))

/-- The function `parallelPingSweep` with `threads` workers under a schedule:
the addresses it prints, or `none` when the schedule does not run it to its
end. -/
def sweepWith (probeOnce : Addr → Nat → Bool) (threads : Int) (ipv4Range : List Addr)
    (schedule : List Tid) : Option (List Addr) :=
  match run probeOnce threads ipv4Range schedule init with
  | some s => if s.pc = MainPC.finished then some s.stdout else none
  | none => none

/-- The function `parallelPingSweep` on a machine with `numCPU` logical CPUs. -/
def parallelPingSweep (probeOnce : Addr → Nat → Bool) (numCPU : Int) (ipv4Range : List Addr)
    (schedule : List Tid) : Option (List Addr) :=
  sweepWith probeOnce (threads numCPU) ipv4Range schedule

/-! ## Observations on traces and the invariant of the worker pool -/

/-- The addresses taken from `ipv4RangeChan`, in the order they were taken. -/
def recvs (tr : List Event) : List Addr :=
  tr.filterMap fun e => match e with | Event.recv _ a => some a | _ => none

/-- The retry-loop actions performed by all workers, in order. -/
def acts (tr : List Event) : List Action :=
  tr.filterMap fun e => match e with | Event.did _ x => some x | _ => none

/-- The addresses taken from `ipv4RangeChan` by worker `i`. -/
def recvsBy (i : Nat) (tr : List Event) : List Addr :=
  tr.filterMap fun e => match e with
    | Event.recv w a => if w = i then some a else none
    | _ => none

/-- The retry-loop actions performed by worker `i`. -/
def actsBy (i : Nat) (tr : List Event) : List Action :=
  tr.filterMap fun e => match e with
    | Event.did w x => if w = i then some x else none
    | _ => none

/-- Sum of a per-action quantity over a list of actions. -/
def weight (m : Action → Nat) (l : List Action) : Nat :=
  (l.map m).sum

/-- Sum of a per-worker quantity over the pool. -/
def wsum (f : Worker → Nat) (ws : List Worker) : Nat :=
  (ws.map f).sum

/-- One for a call of `probeOnce`, zero otherwise. -/
def isProbe : Action → Nat
  | Action.probe _ _ _ => 1
  | _ => 0

/-- One for a call of `probeOnce` on address `x`, zero otherwise. -/
def isProbeOf (x : Addr) : Action → Nat
  | Action.probe a _ _ => if a = x then 1 else 0
  | _ => 0

/-- One for a send of address `x` to `resultChan`, zero otherwise. -/
def isSendOf (x : Addr) : Action → Nat
  | Action.send a => if a = x then 1 else 0
  | _ => 0

/-- One for a send to `resultChan`: the address is recorded as responding. -/
def isResponded : Action → Nat
  | Action.send _ => 1
  | _ => 0

/-- One for a failed second attempt: the address is left out of the results. -/
def isNotResponded : Action → Nat
  | Action.probe _ 2 false => 1
  | _ => 0

/-- The addresses the main goroutine has not yet put on `ipv4RangeChan`. -/
def unqueued (ipv4Range : List Addr) : MainPC → List Addr
  | MainPC.spawning _ => ipv4Range
  | MainPC.queueing rest => rest
  | _ => []

/-- Whether the main goroutine is past `close(ipv4RangeChan)`. -/
def MainPC.queueClosed : MainPC → Bool
  | MainPC.spawning _ => false
  | MainPC.queueing _ => false
  | _ => true

/-- Whether the main goroutine is past `wg.Wait()`. -/
def MainPC.joined : MainPC → Bool
  | MainPC.closingResults => true
  | MainPC.draining => true
  | MainPC.finished => true
  | _ => false

/-- Whether the main goroutine is past `close(resultChan)`, that is, reading
the results. -/
def MainPC.readsResults : MainPC → Bool
  | MainPC.draining => true
  | MainPC.finished => true
  | _ => false

/-- The script of worker `i`, empty for a worker that was never started. -/
def scriptAt (workers : List Worker) (i : Nat) : List Action :=
  match workers[i]? with
  | some w => w.script
  | none => []

/-- The invariant of `parallelPingSweep`, kept by every step. -/
structure Inv (probeOnce : Addr → Nat → Bool) (threads : Int) (ipv4Range : List Addr)
    (s : State) : Prop where
  noPanic : s.panicked = false
  spawned : match s.pc with
    | MainPC.spawning count => s.workers.length = count ∧ (count : Int) ≤ max threads 0
    | _ => (s.workers.length : Int) = max threads 0
  counter : s.wg = wsum Worker.alive s.workers
  queue : recvs s.trace ++ s.ipv4RangeChan ++ unqueued ipv4Range s.pc = ipv4Range
  rangeClosed : s.rangeClosed = s.pc.queueClosed
  resultClosed : s.resultClosed = s.pc.readsResults
  joined : s.pc.joined = true → ∀ w ∈ s.workers, w = Worker.exited
  drained : Worker.exited ∈ s.workers → s.ipv4RangeChan = [] ∧ s.rangeClosed = true
  account : ∀ m : Action → Nat,
    weight m (acts s.trace) + wsum (fun w => weight m w.script) s.workers =
      ((recvs s.trace).map fun a => weight m (retryLoop probeOnce a)).sum
  results : s.stdout ++ s.resultChan = sent (acts s.trace)
  finished : s.pc = MainPC.finished → s.resultChan = []
  perWorker : ∀ i, actsBy i s.trace ++ scriptAt s.workers i = pingSweep probeOnce (recvsBy i s.trace)

/-- A bound on the number of steps the main goroutine can still take, counting
eleven for every address still to be queued. -/
def MainPC.fuel (threads : Int) (ipv4Range : List Addr) : MainPC → Nat
  | MainPC.spawning count => 5 + 11 * ipv4Range.length + 2 * (threads.toNat - count)
  | MainPC.queueing rest => 4 + 11 * rest.length
  | MainPC.waiting => 3
  | MainPC.closingResults => 2
  | MainPC.draining => 1
  | MainPC.finished => 0

/-- A bound on the number of steps a worker can take before it next receives. -/
def Worker.fuel : Worker → Nat
  | Worker.exited => 0
  | Worker.receiving => 1
  | Worker.running script => 2 + 2 * script.length

/-- A bound on the number of steps left in a state: every step lowers it. -/
def State.fuel (threads : Int) (ipv4Range : List Addr) (s : State) : Nat :=
  s.pc.fuel threads ipv4Range + wsum Worker.fuel s.workers + 10 * s.ipv4RangeChan.length +
    s.resultChan.length

/-- The fake prober of the end-to-end scenario: it answers only for the IPv4
addresses whose last octet is 1 or 254, on every attempt. -/
def fakeProber : Addr → Nat → Bool
  | Addr.v4 _ _ _ d, _ => d == 1 || d == 254
  | Addr.v6 _, _ => false

/-- The 254 addresses 10.0.0.1 .. 10.0.0.254, in ascending order. -/
def net10 : List Addr :=
  (List.range 254).map fun k => Addr.v4 10 0 0 (k + 1)

/-! ## Strings, `strconv` and `net/netip` -/

/-- The decimal digit `d` as a character. -/
def digitChar : Nat → Char
  | 0 => '0'
  | 1 => '1'
  | 2 => '2'
  | 3 => '3'
  | 4 => '4'
  | 5 => '5'
  | 6 => '6'
  | 7 => '7'
  | 8 => '8'
  | _ => '9'

/-- Whether the byte is a decimal digit: `'0' <= c && c <= '9'`. -/
def isDigit (c : Char) : Bool :=
  decide ('0' ≤ c ∧ c ≤ '9')

/-- The value `c - '0'` of a digit. -/
def digitValue (c : Char) : Nat :=
  c.toNat - '0'.toNat

/-- Decimal digits of `n`, most significant first, put in front of `acc`;
`fuel` bounds the number of digits. -/
def formatDigits : Nat → Nat → Str → Str
  | 0, _, acc => acc
  | fuel + 1, n, acc =>
    if n < 10 then digitChar n :: acc
    else formatDigits fuel (n / 10) (digitChar (n % 10) :: acc)

/-- The decimal text of a natural number. -/
def formatNat (n : Nat) : Str :=
  formatDigits (n + 1) n []

/-- The function `strconv.Itoa`. -/
def Itoa (i : Int) : Str :=
  if i < 0 then '-' :: formatNat i.natAbs else formatNat i.toNat

/-- The value of a run of decimal digits, `none` when a byte is not a digit. -/
def parseDigits : Str → Nat → Option Nat
  | [], acc => some acc
  | c :: cs, acc => if isDigit c then parseDigits cs (acc * 10 + digitValue c) else none

/-- The function `strconv.Atoi` on a 64-bit platform: an optional sign followed
by at least one decimal digit and nothing else, the value within
[-2^63, 2^63); `none` stands for a non-nil error. -/
def Atoi (s : Str) : Option Int :=
  match s with
  | [] => none
  | c :: cs =>
    if c = '-' then
      if cs = [] then none
      else
        match parseDigits cs 0 with
        | some n => if n ≤ 2 ^ 63 then some (-(n : Int)) else none
        | none => none
    else if c = '+' then
      if cs = [] then none
      else
        match parseDigits cs 0 with
        | some n => if n < 2 ^ 63 then some (n : Int) else none
        | none => none
    else
      match parseDigits (c :: cs) 0 with
      | some n => if n < 2 ^ 63 then some (n : Int) else none
      | none => none

/-- The function `strings.Split(s, ".")`. -/
def splitDot : Str → List Str
  | [] => [[]]
  | c :: cs =>
    if c = '.' then [] :: splitDot cs
    else
      match splitDot cs with
      | [] => [[c]]
      | p :: ps => (c :: p) :: ps

/-- The function `strings.Join(parts, ".")`. -/
def joinDot : List Str → Str
  | [] => []
  | [p] => p
  | p :: q :: ps => p ++ '.' :: joinDot (q :: ps)

/-- The loop of `parseIPv4Fields` in `net/netip` over the bytes still to read:
`val` and `digLen` describe the octet being read, `fields` holds the octets
already stored (`pos` is its length) and `prev` is the byte before the current
one (`none` at index 0). `none` stands for a parse error. -/
def parseIPv4Fields : Str → Nat → Nat → List Nat → Option Char → Option (List Nat)
  | [], val, _, fields, _ => if fields.length < 3 then none else some (fields ++ [val])
  | c :: cs, val, digLen, fields, prev =>
    if isDigit c then
      if digLen = 1 ∧ val = 0 then none
      else if val * 10 + digitValue c > 255 then none
      else parseIPv4Fields cs (val * 10 + digitValue c) (digLen + 1) fields (some c)
    else if c = '.' then
      if prev = none ∨ cs = [] ∨ prev = some '.' then none
      else if fields.length = 3 then none
      else parseIPv4Fields cs 0 0 (fields ++ [val]) (some c)
    else none

/-- The function `parseIPv4` of `net/netip`. -/
def parseIPv4 (s : Str) : Option Addr :=
  match parseIPv4Fields s 0 0 [] none with
  | some [a, b, c, d] => some (Addr.v4 a b c d)
  | _ => none

/-- The function `netip.ParseAddr`: the first of `.`, `:` and `%` in the text
decides how it is parsed. The IPv6 parser is a parameter. -/
def ParseAddr (parseIPv6 : Str → Option Addr) (s : Str) : Option Addr :=
  match s.find? fun c => c = '.' ∨ c = ':' ∨ c = '%' with
  | some c =>
    if c = '.' then parseIPv4 s
    else if c = ':' then parseIPv6 s
    else none
  | none => none

/-- The text of an address, `netip.Addr.String`. -/
def Addr.format : Addr → Str
  | Addr.v4 a b c d =>
    formatNat a ++ '.' :: formatNat b ++ '.' :: formatNat c ++ '.' :: formatNat d
  | Addr.v6 text => text

/-- A `netip.Prefix`: an address and a prefix length. -/
structure Prefix where
  addr : Addr
  bits : Nat
  deriving DecidableEq, Repr

/-- The text of a prefix, `netip.Prefix.String`. -/
def Prefix.format (p : Prefix) : Str :=
  p.addr.format ++ '/' :: formatNat p.bits

/-- An IPv4 address as a 32-bit number. -/
def ipv4Value (a b c d : Nat) : Nat :=
  a * 2 ^ 24 + b * 2 ^ 16 + c * 2 ^ 8 + d

/-- The method `netip.Prefix.Masked` on an IPv4 prefix: the host bits are set
to zero, the prefix length is kept. -/
def maskedV4 (a b c d bits : Nat) : Prefix :=
  let m := 2 ^ (32 - bits)
  let n := ipv4Value a b c d / m * m
  { addr := Addr.v4 (n / 2 ^ 24 % 256) (n / 2 ^ 16 % 256) (n / 2 ^ 8 % 256) (n % 256),
    bits := bits }

/-- Whether the IPv4 prefix `a.b.c.d/bits` contains the address, as
`netip.Prefix.Contains` decides it. -/
def containsV4 (a b c d bits : Nat) : Addr → Bool
  | Addr.v4 x y z w =>
    decide (ipv4Value x y z w / 2 ^ (32 - bits) = ipv4Value a b c d / 2 ^ (32 - bits))
  | Addr.v6 _ => false

/-- The text split at its last `/`: what stands before and after it. -/
def splitLastSlash (s : Str) : Option (Str × Str) :=
  match s.reverse.span fun c => c ≠ '/' with
  | (after, _ :: before) => some (before.reverse, after.reverse)
  | (_, []) => none

/-- The check `len(bitsStr) > 1 && (bitsStr[0] < '1' || bitsStr[0] > '9')` of
`netip.ParsePrefix`, which refuses a sign and a leading zero. -/
def badBits : Str → Bool
  | c :: _ :: _ => decide (c < '1' ∨ c > '9')
  | _ => false

/-- The function `netip.ParsePrefix`: an address, a `/` and a prefix length
written without sign or leading zero, at most 32 for IPv4 and 128 for IPv6; an
IPv6 address with a zone is refused. `none` stands for a non-nil error. -/
def ParsePrefix (parseIPv6 : Str → Option Addr) (s : Str) : Option Prefix :=
  match splitLastSlash s with
  | none => none
  | some (ipStr, bitsStr) =>
    match ParseAddr parseIPv6 ipStr with
    | none => none
    | some ip =>
      if (match ip with | Addr.v6 text => text.contains '%' | _ => false) then none
      else if badBits bitsStr then none
      else
        match Atoi bitsStr with
        | none => none
        | some bits =>
          if bits < 0 ∨ bits > (match ip with | Addr.v6 _ => 128 | _ => 32) then none
          else some { addr := ip, bits := bits.toNat }

/-! ## The functions `getNICipv4NetworkAddress` and `selectIPv4SweepRange` -/

/-- A network interface as `getNICipv4NetworkAddress` sees it: the two flags it
tests and the result of `iface.Addrs()`, `none` for an error and otherwise the
`addr.String()` of every address. -/
structure Interface where
  up : Bool
  loopback : Bool
  addrs : Option (List Str)
  deriving Repr

/-- The inner loop of `getNICipv4NetworkAddress` (main.go 56-66): every address
text that parses as an IPv4 prefix adds the text of the masked prefix. -/
def addrEntries (parseIPv6 : Str → Option Addr) : List Str → List Str
  | [] => []
  | addr :: rest =>
    match ParsePrefix parseIPv6 addr with
    | some { addr := Addr.v4 a b c d, bits := bits } =>
      (maskedV4 a b c d bits).format :: addrEntries parseIPv6 rest
    | _ => addrEntries parseIPv6 rest

/-- The outer loop of `getNICipv4NetworkAddress` (main.go 44-67): interfaces
that are down or loopback, or whose addresses cannot be listed, are skipped. -/
def ifaceEntries (parseIPv6 : Str → Option Addr) : List Interface → List Str
  | [] => []
  | iface :: rest =>
    if iface.up = false ∨ iface.loopback = true then ifaceEntries parseIPv6 rest
    else
      match iface.addrs with
      | none => ifaceEntries parseIPv6 rest
      | some addrs => addrEntries parseIPv6 addrs ++ ifaceEntries parseIPv6 rest

/-- The function `getNICipv4NetworkAddress`; `interfaces` is the result of
`net.Interfaces()`, `none` for an error, which the function returns. -/
def getNICipv4NetworkAddress (parseIPv6 : Str → Option Addr)
    (interfaces : Option (List Interface)) : Option (List Str) :=
  match interfaces with
  | none => none
  | some ifaces => some (ifaceEntries parseIPv6 ifaces)

/-- What `selectIPv4SweepRange` writes to the terminal: the prompt with the
numbered menu, a cleared screen, and the three inline error messages. -/
inductive Output where
  | menu (entries : List Str)
  | clear
  | notANumber
  | outOfRange
  | inputError
  deriving DecidableEq, Repr

/-- How a call of `selectIPv4SweepRange` ends: it returns a range, it returns
the `ParseAddr` error, it dies of a runtime panic (index or slice bounds out of
range), or it is still prompting when the input given to it is used up. -/
inductive Selected where
  | range (ipv4Range : List Addr)
  | parseError
  | panicked
  | prompting
  deriving DecidableEq, Repr

/-- The loop `for count := 1; count < 255; count++` of `selectIPv4SweepRange`
(main.go 113-119), started at `count` with `remaining = 255 - count`
iterations left and `ipv4Range` built so far. -/
def rangeLoop (parseIPv6 : Str → Option Addr) (ipv4ThreeOctet : Str) :
    Nat → Nat → List Addr → Selected
  | 0, _, ipv4Range => Selected.range ipv4Range
  | remaining + 1, count, ipv4Range =>
    match ParseAddr parseIPv6 (ipv4ThreeOctet ++ Itoa count) with
    | none => Selected.parseError
    | some ipv4Addr =>
      rangeLoop parseIPv6 ipv4ThreeOctet remaining (count + 1) (ipv4Range ++ [ipv4Addr])

/-- The range construction of `selectIPv4SweepRange` (main.go 108-120) for the
selected index `input_munber`: indexing the menu panics outside `0 .. len-1`,
and `octets[:3]` panics when the entry has fewer than three dot-separated
parts. -/
def sweepRange (parseIPv6 : Str → Option Addr) (ipv4NetaddrsPrefix : List Str)
    (input_munber : Int) : Selected :=
  if input_munber < 0 then Selected.panicked
  else
    match ipv4NetaddrsPrefix[input_munber.toNat]? with
    | none => Selected.panicked
    | some entry =>
      let octets := splitDot entry
      if octets.length < 3 then Selected.panicked
      else
        let ipv4ThreeOctet := joinDot (octets.take 3) ++ ['.']
        rangeLoop parseIPv6 ipv4ThreeOctet 254 1 []

/-- How one line of input is judged (main.go 88-106): `none` when the line is
accepted as the selection `number`, otherwise the inline error printed before
the loop prompts again. `scan` is `none` when `scanner.Scan()` returned false
and the text of the line otherwise. -/
def judge (ipv4NetaddrsPrefix : List Str) (scan : Option Str) : Except Output Int :=
  match scan with
  | none => Except.error Output.inputError
  | some input =>
    match Atoi input with
    | none => Except.error Output.notANumber
    | some number =>
      if (ipv4NetaddrsPrefix.length : Int) - 1 < number then Except.error Output.outOfRange
      else Except.ok number

/-- The function `selectIPv4SweepRange` fed with the results of the successive
`scanner.Scan()` calls: what it prints and how it ends. -/
def selectIPv4SweepRange (parseIPv6 : Str → Option Addr) (ipv4NetaddrsPrefix : List Str) :
    List (Option Str) → List Output × Selected
  | [] => ([Output.menu ipv4NetaddrsPrefix], Selected.prompting)
  | scan :: rest =>
    match judge ipv4NetaddrsPrefix scan with
    | Except.error message =>
      let next := selectIPv4SweepRange parseIPv6 ipv4NetaddrsPrefix rest
      (Output.menu ipv4NetaddrsPrefix :: Output.clear :: message :: next.1, next.2)
    | Except.ok number =>
      ([Output.menu ipv4NetaddrsPrefix], sweepRange parseIPv6 ipv4NetaddrsPrefix number)

/-- The three possible runs of the retry loop. -/
theorem retryLoop_eq (probeOnce : Addr → Nat → Bool) (a : Addr) :
    retryLoop probeOnce a =
      if probeOnce a 1 then [Action.probe a 1 true, Action.send a]
      else if probeOnce a 2 then
        [Action.probe a 1 false, Action.sleep 300, Action.probe a 2 true, Action.send a]
      else
        [Action.probe a 1 false, Action.sleep 300, Action.probe a 2 false, Action.sleep 300] := by
  unfold retryLoop
  simp only [retryFrom]
  by_cases h1 : probeOnce a 1 <;> by_cases h2 : probeOnce a 2 <;> simp [h1, h2]

/-- Claim C2: when the first `probeOnce(A)` returns true, the retry loop for `A`
is exactly one probe call followed by one send of `A`: `A` is sent once,
`probeOnce` is called once and there is no sleep. -/
theorem first_attempt_success (probeOnce : Addr → Nat → Bool) (a : Addr)
    (h : probeOnce a 1 = true) :
    retryLoop probeOnce a = [Action.probe a 1 true, Action.send a] ∧
      sent (retryLoop probeOnce a) = [a] ∧
      attempts (retryLoop probeOnce a) = 1 ∧
      sleeps (retryLoop probeOnce a) = 0 := by
  rw [retryLoop_eq]
  simp [h, sent, attempts, sleeps]

theorem first_attempt_success_witness :
    (fun (x : Addr) (_ : Nat) => decide (x = Addr.v4 10 0 0 1)) (Addr.v4 10 0 0 1) 1 = true ∧
    (retryLoop (fun x _ => decide (x = Addr.v4 10 0 0 1)) (Addr.v4 10 0 0 1) =
        [Action.probe (Addr.v4 10 0 0 1) 1 true, Action.send (Addr.v4 10 0 0 1)] ∧
      sent (retryLoop (fun x _ => decide (x = Addr.v4 10 0 0 1)) (Addr.v4 10 0 0 1)) =
        [Addr.v4 10 0 0 1] ∧
      attempts (retryLoop (fun x _ => decide (x = Addr.v4 10 0 0 1)) (Addr.v4 10 0 0 1)) = 1 ∧
      sleeps (retryLoop (fun x _ => decide (x = Addr.v4 10 0 0 1)) (Addr.v4 10 0 0 1)) = 0) :=
  ⟨by decide, first_attempt_success _ _ (by decide)⟩

/-- Claim C3: when `probeOnce(A)` returns false on both attempts, `A` is never
sent, `probeOnce` is called exactly twice (attempts 1 and 2), and a 300 ms sleep
stands between the first and the second call. -/
theorem both_attempts_fail (probeOnce : Addr → Nat → Bool) (a : Addr)
    (h1 : probeOnce a 1 = false) (h2 : probeOnce a 2 = false) :
    sent (retryLoop probeOnce a) = [] ∧
      attempts (retryLoop probeOnce a) = 2 ∧
      (∃ tail, retryLoop probeOnce a =
        Action.probe a 1 false :: Action.sleep 300 :: Action.probe a 2 false :: tail ∧
        attempts tail = 0) := by
  rw [retryLoop_eq]
  simp [h1, h2, sent, attempts]

theorem both_attempts_fail_witness :
    (fun (_ : Addr) (_ : Nat) => false) (Addr.v4 10 0 0 7) 1 = false ∧
    (fun (_ : Addr) (_ : Nat) => false) (Addr.v4 10 0 0 7) 2 = false ∧
    (sent (retryLoop (fun _ _ => false) (Addr.v4 10 0 0 7)) = [] ∧
      attempts (retryLoop (fun _ _ => false) (Addr.v4 10 0 0 7)) = 2 ∧
      (∃ tail, retryLoop (fun _ _ => false) (Addr.v4 10 0 0 7) =
        Action.probe (Addr.v4 10 0 0 7) 1 false :: Action.sleep 300 ::
          Action.probe (Addr.v4 10 0 0 7) 2 false :: tail ∧
        attempts tail = 0)) :=
  ⟨rfl, rfl, both_attempts_fail _ _ rfl rfl⟩

/-- Claim C10, refuted as stated: when both attempts fail the loop sleeps twice
for two attempts (not attempts minus one), and the last action of the loop is
the sleep that follows the final attempt. -/
theorem sleep_after_final_attempt :
    sleeps (retryLoop (fun _ _ => false) (Addr.v4 10 0 0 7)) = 2 ∧
      attempts (retryLoop (fun _ _ => false) (Addr.v4 10 0 0 7)) = 2 ∧
      sleeps (retryLoop (fun _ _ => false) (Addr.v4 10 0 0 7)) ≠
        attempts (retryLoop (fun _ _ => false) (Addr.v4 10 0 0 7)) - 1 ∧
      (retryLoop (fun _ _ => false) (Addr.v4 10 0 0 7)).getLast? = some (Action.sleep 300) := by
  decide

/-- Claim C10, amended: the loop sleeps 300 ms after every failed attempt and
only then, the final attempt included. The number of sleeps equals the number
of failed attempts: none when the first attempt succeeds, one when the first
fails and the second succeeds, two when both fail; every sleep lasts 300 ms
and directly follows a failed probe. -/
theorem sleeps_eq_failed_attempts (probeOnce : Addr → Nat → Bool) (a : Addr) :
    sleeps (retryLoop probeOnce a) = failedAttempts (retryLoop probeOnce a) ∧
      sleeps (retryLoop probeOnce a) =
        (if probeOnce a 1 then 0 else if probeOnce a 2 then 1 else 2) ∧
      attempts (retryLoop probeOnce a) = (if probeOnce a 1 then 1 else 2) ∧
      (∀ pre ms post, retryLoop probeOnce a = pre ++ Action.sleep ms :: post →
        ms = 300 ∧ ∃ k, pre.getLast? = some (Action.probe a k false)) := by
  rw [retryLoop_eq]
  cases h1 : probeOnce a 1
  · cases h2 : probeOnce a 2
    · refine ⟨by simp [sleeps, failedAttempts], by simp [sleeps], by simp [attempts], ?_⟩
      intro pre ms post h
      rcases pre with _ | ⟨x, _ | ⟨y, _ | ⟨z, _ | ⟨u, _ | ⟨v, pre⟩⟩⟩⟩⟩ <;> simp at h
      · obtain ⟨hx, hms, -⟩ := h
        exact ⟨hms.symm, 1, by simp [hx]⟩
      · obtain ⟨-, -, hz, hms, -⟩ := h
        exact ⟨hms.symm, 2, by simp [hz]⟩
    · refine ⟨by simp [sleeps, failedAttempts], by simp [sleeps], by simp [attempts], ?_⟩
      intro pre ms post h
      rcases pre with _ | ⟨x, _ | ⟨y, _ | ⟨z, _ | ⟨u, pre⟩⟩⟩⟩ <;> simp at h
      obtain ⟨hx, hms, -⟩ := h
      exact ⟨hms.symm, 1, by simp [hx]⟩
  · refine ⟨by simp [sleeps, failedAttempts], by simp [sleeps], by simp [attempts], ?_⟩
    intro pre ms post h
    rcases pre with _ | ⟨x, _ | ⟨y, pre⟩⟩ <;> simp at h

/-! ## Lemmas on sums over the pool and on traces -/

theorem wsum_append (f : Worker → Nat) (ws : List Worker) (w : Worker) :
    wsum f (ws ++ [w]) = wsum f ws + f w := by
  simp [wsum]

theorem wsum_set (f : Worker → Nat) (w : Worker) :
    ∀ (ws : List Worker) (i : Nat) (w0 : Worker), ws[i]? = some w0 →
      wsum f (ws.set i w) + f w0 = wsum f ws + f w := by
  intro ws
  induction ws with
  | nil => intro i w0 h; simp at h
  | cons x xs ih =>
    intro i w0 h
    cases i with
    | zero =>
      simp at h
      subst h
      simp [wsum]
      omega
    | succ j =>
      simp at h
      have := ih j w0 h
      simp [wsum] at this ⊢
      omega

theorem wsum_eq_zero (f : Worker → Nat) (ws : List Worker)
    (h : ∀ w ∈ ws, f w = 0) : wsum f ws = 0 := by
  induction ws with
  | nil => rfl
  | cons x xs ih =>
    simp only [wsum, List.map_cons, List.sum_cons]
    have h1 := h x (by simp)
    have h2 := ih (fun w hw => h w (by simp [hw]))
    simp only [wsum] at h2
    omega

theorem wsum_pos_of_mem (f : Worker → Nat) (ws : List Worker) (w : Worker)
    (hw : w ∈ ws) : f w ≤ wsum f ws := by
  induction ws with
  | nil => simp at hw
  | cons x xs ih =>
    simp only [wsum, List.map_cons, List.sum_cons]
    rcases List.mem_cons.mp hw with h | h
    · subst h; omega
    · have := ih h
      simp only [wsum] at this
      omega

theorem recvs_snoc_recv (tr : List Event) (i : Nat) (a : Addr) :
    recvs (tr ++ [Event.recv i a]) = recvs tr ++ [a] := by
  simp [recvs, List.filterMap_append]

theorem recvs_snoc_did (tr : List Event) (i : Nat) (x : Action) :
    recvs (tr ++ [Event.did i x]) = recvs tr := by
  simp [recvs, List.filterMap_append]

theorem acts_snoc_recv (tr : List Event) (i : Nat) (a : Addr) :
    acts (tr ++ [Event.recv i a]) = acts tr := by
  simp [acts, List.filterMap_append]

theorem acts_snoc_did (tr : List Event) (i : Nat) (x : Action) :
    acts (tr ++ [Event.did i x]) = acts tr ++ [x] := by
  simp [acts, List.filterMap_append]

theorem recvsBy_snoc_recv (tr : List Event) (i j : Nat) (a : Addr) :
    recvsBy j (tr ++ [Event.recv i a]) = recvsBy j tr ++ (if i = j then [a] else []) := by
  by_cases h : i = j <;> simp [recvsBy, List.filterMap_append, h]

theorem recvsBy_snoc_did (tr : List Event) (i j : Nat) (x : Action) :
    recvsBy j (tr ++ [Event.did i x]) = recvsBy j tr := by
  simp [recvsBy, List.filterMap_append]

theorem actsBy_snoc_recv (tr : List Event) (i j : Nat) (a : Addr) :
    actsBy j (tr ++ [Event.recv i a]) = actsBy j tr := by
  simp [actsBy, List.filterMap_append]

theorem actsBy_snoc_did (tr : List Event) (i j : Nat) (x : Action) :
    actsBy j (tr ++ [Event.did i x]) = actsBy j tr ++ (if i = j then [x] else []) := by
  by_cases h : i = j <;> simp [actsBy, List.filterMap_append, h]

theorem weight_append (m : Action → Nat) (l₁ l₂ : List Action) :
    weight m (l₁ ++ l₂) = weight m l₁ + weight m l₂ := by
  simp [weight]

theorem weight_cons (m : Action → Nat) (x : Action) (l : List Action) :
    weight m (x :: l) = m x + weight m l := by
  simp [weight]

theorem weight_nil (m : Action → Nat) : weight m [] = 0 := rfl

theorem sent_append (l₁ l₂ : List Action) : sent (l₁ ++ l₂) = sent l₁ ++ sent l₂ := by
  simp [sent, List.filterMap_append]

theorem pingSweep_snoc (probeOnce : Addr → Nat → Bool) (l : List Addr) (a : Addr) :
    pingSweep probeOnce (l ++ [a]) = pingSweep probeOnce l ++ retryLoop probeOnce a := by
  simp [pingSweep, List.flatMap_append]

theorem scriptAt_set (ws : List Worker) (i j : Nat) (w w0 : Worker) (h : ws[i]? = some w0) :
    scriptAt (ws.set i w) j = if i = j then w.script else scriptAt ws j := by
  have hlt : i < ws.length := (List.getElem?_eq_some_iff.mp h).1
  unfold scriptAt
  rw [List.getElem?_set]
  by_cases hij : i = j
  · subst hij
    simp [hlt]
  · simp [hij]

theorem scriptAt_spawn (ws : List Worker) (j : Nat) :
    scriptAt (ws ++ [Worker.receiving]) j = scriptAt ws j := by
  unfold scriptAt
  by_cases hj : j < ws.length
  · rw [List.getElem?_append_left hj]
  · rw [List.getElem?_append_right (by omega)]
    have : ws[j]? = none := List.getElem?_eq_none (by omega)
    rw [this]
    cases hk : j - ws.length with
    | zero => simp [Worker.script]
    | succ k => simp

/-! ## The invariant is kept by every step -/

theorem inv_init (probeOnce : Addr → Nat → Bool) (threads : Int) (ipv4Range : List Addr) :
    Inv probeOnce threads ipv4Range init := by
  refine ⟨rfl, ?_, rfl, ?_, rfl, rfl, ?_, ?_, ?_, rfl, ?_, ?_⟩
  · simp [init]
  · simp [init, recvs, unqueued]
  · simp [init, MainPC.joined]
  · simp [init]
  · intro m; simp [init, acts, recvs, weight, wsum]
  · simp [init]
  · intro i; simp [init, actsBy, recvsBy, scriptAt, pingSweep]

theorem inv_mainStep {probeOnce : Addr → Nat → Bool} {threads : Int} {ipv4Range : List Addr}
    {s s' : State} (h : Inv probeOnce threads ipv4Range s)
    (hs : mainStep threads ipv4Range s = some s') : Inv probeOnce threads ipv4Range s' := by
  obtain ⟨h1, h2, h3, h4, h5, h6, h7, h8, h9, h10, h11, h12⟩ := h
  unfold mainStep at hs
  cases hpc : s.pc with
  | spawning count =>
    simp only [hpc] at hs h2 h4 h5 h6 h7
    split at hs
    · rename_i hlt
      cases hs
      refine ⟨h1, ?_, ?_, ?_, ?_, ?_, ?_, ?_, ?_, h10, ?_, ?_⟩
      · simp only [List.length_append, List.length_singleton]; omega
      · simp only [wsum_append, Worker.alive]; omega
      · simpa [unqueued] using h4
      · simpa [MainPC.queueClosed] using h5
      · simpa [MainPC.readsResults] using h6
      · simp [MainPC.joined]
      · intro hm
        simp only [List.mem_append, List.mem_singleton] at hm
        rcases hm with hm | hm
        · exact h8 hm
        · cases hm
      · intro m
        simp only [wsum_append, Worker.script, weight_nil, Nat.add_zero]
        exact h9 m
      · simp
      · intro i
        simp only [scriptAt_spawn]
        exact h12 i
    · rename_i hlt
      cases hs
      refine ⟨h1, ?_, h3, ?_, ?_, ?_, ?_, h8, h9, h10, ?_, ?_⟩
      · simp only; omega
      · simpa [unqueued] using h4
      · simpa [MainPC.queueClosed] using h5
      · simpa [MainPC.readsResults] using h6
      · simp [MainPC.joined]
      · simp
      · intro i
        exact h12 i
  | queueing rest =>
    cases rest with
    | nil =>
      simp only [hpc] at hs h2 h4 h5 h6 h7
      cases hs
      refine ⟨h1, ?_, h3, ?_, ?_, ?_, ?_, ?_, h9, h10, ?_, ?_⟩
      · simpa using h2
      · simpa [unqueued] using h4
      · simp [MainPC.queueClosed]
      · simpa [MainPC.readsResults] using h6
      · simp [MainPC.joined]
      · intro hm
        exact ⟨(h8 hm).1, rfl⟩
      · simp
      · intro i
        exact h12 i
    | cons ipv4 rest =>
      simp only [hpc] at hs h2 h4 h5 h6 h7
      split at hs
      · cases hs
        refine ⟨h1, ?_, h3, ?_, ?_, ?_, ?_, ?_, h9, h10, ?_, ?_⟩
        · simpa using h2
        · simpa [unqueued] using h4
        · simpa [MainPC.queueClosed] using h5
        · simpa [MainPC.readsResults] using h6
        · simp [MainPC.joined]
        · intro hm
          have := (h8 hm).2
          rw [h5] at this
          simp [MainPC.queueClosed] at this
        · simp
        · intro i
          exact h12 i
      · cases hs
  | waiting =>
    simp only [hpc] at hs h2 h4 h5 h6 h7
    split at hs
    · rename_i hwg
      cases hs
      refine ⟨h1, ?_, h3, ?_, ?_, ?_, ?_, h8, h9, h10, ?_, ?_⟩
      · simpa using h2
      · simpa [unqueued] using h4
      · simpa [MainPC.queueClosed] using h5
      · simpa [MainPC.readsResults] using h6
      · intro _ w hw
        have hle := wsum_pos_of_mem Worker.alive s.workers w hw
        cases w <;> simp [Worker.alive] at hle ⊢ <;> omega
      · simp
      · intro i
        exact h12 i
    · cases hs
  | closingResults =>
    simp only [hpc] at hs h2 h4 h5 h6 h7
    cases hs
    refine ⟨h1, ?_, h3, ?_, ?_, ?_, ?_, h8, h9, h10, ?_, ?_⟩
    · simpa using h2
    · simpa [unqueued] using h4
    · simpa [MainPC.queueClosed] using h5
    · simp [MainPC.readsResults]
    · intro _; exact h7 rfl
    · simp
    · intro i
      exact h12 i
  | draining =>
    simp only [hpc] at hs h2 h4 h5 h6 h7
    split at hs
    · rename_i ipv4 rest hrc
      cases hs
      refine ⟨h1, ?_, h3, ?_, ?_, ?_, ?_, h8, h9, ?_, ?_, ?_⟩
      · simpa [hpc] using h2
      · simpa [hpc, unqueued] using h4
      · simpa [hpc, MainPC.queueClosed] using h5
      · simpa [hpc, MainPC.readsResults] using h6
      · intro _; exact h7 rfl
      · rw [← h10, hrc]; simp
      · simp [hpc]
      · intro i
        exact h12 i
    · rename_i hrc
      split at hs
      · cases hs
        refine ⟨h1, ?_, h3, ?_, ?_, ?_, ?_, h8, h9, h10, ?_, ?_⟩
        · simpa using h2
        · simpa [unqueued] using h4
        · simpa [MainPC.queueClosed] using h5
        · simpa [MainPC.readsResults] using h6
        · intro _; exact h7 rfl
        · intro _; exact hrc
        · intro i
          exact h12 i
      · cases hs
  | finished =>
    simp [hpc] at hs

theorem script_running (l : List Action) : (Worker.running l).script = l := rfl

theorem script_receiving : Worker.receiving.script = [] := rfl

theorem script_exited : Worker.exited.script = [] := rfl

theorem alive_running (l : List Action) : (Worker.running l).alive = 1 := rfl

theorem alive_receiving : Worker.receiving.alive = 1 := rfl

theorem alive_exited : Worker.exited.alive = 0 := rfl

theorem not_joined_of_alive {probeOnce : Addr → Nat → Bool} {threads : Int}
    {ipv4Range : List Addr} {s : State} (h : Inv probeOnce threads ipv4Range s)
    {i : Nat} {w : Worker} (hw : s.workers[i]? = some w) (hne : w ≠ Worker.exited) :
    s.pc.joined = false := by
  cases hj : s.pc.joined with
  | false => rfl
  | true =>
    have hmem : w ∈ s.workers := List.getElem?_mem hw
    exact absurd (h.joined hj w hmem) hne

theorem exited_mem_set {ws : List Worker} {i : Nat} {w : Worker}
    (hm : Worker.exited ∈ ws.set i w) (hne : w ≠ Worker.exited) : Worker.exited ∈ ws := by
  rcases List.mem_or_eq_of_mem_set hm with h | h
  · exact h
  · exact absurd h.symm hne

theorem inv_workerStep {probeOnce : Addr → Nat → Bool} {threads : Int} {ipv4Range : List Addr}
    {s s' : State} {i : Nat} (h : Inv probeOnce threads ipv4Range s)
    (hs : workerStep probeOnce ipv4Range.length i s = some s') :
    Inv probeOnce threads ipv4Range s' := by
  have hinv := h
  obtain ⟨h1, h2, h3, h4, h5, h6, h7, h8, h9, h10, h11, h12⟩ := h
  unfold workerStep at hs
  cases hw : s.workers[i]? with
  | none => simp [hw] at hs
  | some w =>
    have hlt : i < s.workers.length := (List.getElem?_eq_some_iff.mp hw).1
    cases w with
    | exited => simp [hw] at hs
    | receiving =>
      have hnj := not_joined_of_alive hinv hw (by simp)
      simp only [hw] at hs
      cases hq : s.ipv4RangeChan with
      | cons sweepIPv4 rest =>
        simp only [hq] at hs
        cases hs
        refine ⟨h1, ?_, ?_, ?_, h5, h6, ?_, ?_, ?_, ?_, h11, ?_⟩
        · simpa using h2
        · have := wsum_set Worker.alive (Worker.running (retryLoop probeOnce sweepIPv4))
            s.workers i _ hw
          simp only [alive_running, alive_receiving, alive_exited] at this ⊢
          omega
        · simp only [recvs_snoc_recv]
          rw [hq] at h4
          simpa using h4
        · intro hj
          simp only at hj
          rw [hnj] at hj
          cases hj
        · intro hm
          have := (h8 (exited_mem_set hm (by simp))).1
          rw [hq] at this
          cases this
        · intro m
          have := wsum_set (fun w => weight m w.script)
            (Worker.running (retryLoop probeOnce sweepIPv4)) s.workers i _ hw
          have h9m := h9 m
          simp only [script_running, script_receiving, script_exited, weight_nil, acts_snoc_recv, recvs_snoc_recv, List.map_append,
            List.sum_append, List.map_cons, List.map_nil, List.sum_cons, List.sum_nil] at this ⊢
          omega
        · simpa only [acts_snoc_recv] using h10
        · intro j
          simp only [scriptAt_set s.workers i j _ _ hw, actsBy_snoc_recv, recvsBy_snoc_recv]
          by_cases hij : i = j
          · subst hij
            have := h12 i
            simp only [scriptAt, hw, script_receiving, List.append_nil] at this
            simp only [if_true, script_running, pingSweep_snoc, this]
          · simp only [hij, if_false, List.append_nil]
            exact h12 j
      | nil =>
        simp only [hq] at hs
        split at hs
        · rename_i hclosed
          have hwg : s.wg ≠ 0 := by
            have := wsum_pos_of_mem Worker.alive s.workers _ (List.getElem?_mem hw)
            simp only [alive_running, alive_receiving, alive_exited] at this
            omega
          simp only [hwg, if_false] at hs
          cases hs
          refine ⟨h1, ?_, ?_, ?_, h5, h6, ?_, ?_, ?_, h10, h11, ?_⟩
          · simpa using h2
          · have := wsum_set Worker.alive Worker.exited s.workers i _ hw
            simp only [alive_running, alive_receiving, alive_exited] at this ⊢
            omega
          · rw [hq] at h4
            simpa using h4
          · intro hj
            simp only at hj
            rw [hnj] at hj
            cases hj
          · intro _
            exact ⟨rfl, hclosed⟩
          · intro m
            have := wsum_set (fun w => weight m w.script) Worker.exited s.workers i _ hw
            have h9m := h9 m
            simp only [script_running, script_receiving, script_exited, weight_nil] at this ⊢
            omega
          · intro j
            simp only [scriptAt_set s.workers i j _ _ hw]
            by_cases hij : i = j
            · subst hij
              have := h12 i
              simp only [scriptAt, hw, script_receiving, script_running] at this
              simpa only [if_true, script_receiving, script_exited] using this
            · simp only [hij, if_false]
              exact h12 j
        · cases hs
    | running script =>
      have hnj := not_joined_of_alive hinv hw (by simp)
      have hnr : s.resultClosed = false := by
        rw [h6]
        cases hpc : s.pc <;> simp [hpc, MainPC.joined, MainPC.readsResults] at hnj ⊢
      cases script with
      | nil =>
        simp only [hw] at hs
        cases hs
        refine ⟨h1, ?_, ?_, h4, h5, h6, ?_, ?_, ?_, h10, h11, ?_⟩
        · simpa using h2
        · have := wsum_set Worker.alive Worker.receiving s.workers i _ hw
          simp only [alive_running, alive_receiving, alive_exited] at this ⊢
          omega
        · intro hj
          simp only at hj
          rw [hnj] at hj
          cases hj
        · intro hm
          exact h8 (exited_mem_set hm (by simp))
        · intro m
          have := wsum_set (fun w => weight m w.script) Worker.receiving s.workers i _ hw
          have h9m := h9 m
          simp only [script_running, script_receiving, script_exited, weight_nil] at this ⊢
          omega
        · intro j
          simp only [scriptAt_set s.workers i j _ _ hw]
          by_cases hij : i = j
          · subst hij
            have := h12 i
            simp only [scriptAt, hw, script_receiving, script_running] at this
            simpa only [if_true, script_receiving, script_exited] using this
          · simp only [hij, if_false]
            exact h12 j
      | cons x rest =>
        simp only [hw] at hs
        have key : ∀ s'' : State, s''.pc = s.pc → s''.wg = s.wg →
            s''.ipv4RangeChan = s.ipv4RangeChan → s''.rangeClosed = s.rangeClosed →
            s''.resultClosed = s.resultClosed → s''.panicked = s.panicked →
            s''.workers = s.workers.set i (Worker.running rest) →
            s''.trace = s.trace ++ [Event.did i x] →
            s''.stdout ++ s''.resultChan = s.stdout ++ s.resultChan ++ sent [x] →
            Inv probeOnce threads ipv4Range s'' := by
          intro s'' e1 e2 e3 e4 e5 e6 e7 e8 e9
          refine ⟨by rw [e6, h1], ?_, ?_, ?_, by rw [e4, e1, h5], by rw [e5, e1, h6], ?_, ?_, ?_,
            ?_, ?_, ?_⟩
          · rw [e1, e7]
            simpa using h2
          · have := wsum_set Worker.alive (Worker.running rest) s.workers i _ hw
            rw [e2, e7]
            simp only [alive_running, alive_receiving, alive_exited] at this ⊢
            omega
          · rw [e8, e3, e1, recvs_snoc_did]
            exact h4
          · intro hj
            rw [e1, hnj] at hj
            cases hj
          · intro hm
            rw [e7] at hm
            rw [e3, e4]
            exact h8 (exited_mem_set hm (by simp))
          · intro m
            have := wsum_set (fun w => weight m w.script) (Worker.running rest) s.workers i _ hw
            have h9m := h9 m
            rw [e7, e8]
            simp only [script_running, script_receiving, script_exited, weight_cons, weight_append, weight_nil, acts_snoc_did,
              recvs_snoc_did] at this ⊢
            omega
          · rw [e9, e8, acts_snoc_did, sent_append, h10]
          · intro hf
            rw [e1] at hf
            rw [hf] at hnj
            cases hnj
          · intro j
            rw [e7, e8]
            simp only [scriptAt_set s.workers i j _ _ hw, actsBy_snoc_did, recvsBy_snoc_did]
            by_cases hij : i = j
            · subst hij
              have := h12 i
              simp only [scriptAt, hw, script_running] at this
              simp only [if_true, script_running, List.append_assoc, List.singleton_append, this]
            · simp only [hij, if_false, List.append_nil]
              exact h12 j
        cases x with
        | send a =>
          simp only [perform, hnr, Bool.false_eq_true, if_false] at hs
          split at hs
          · cases hs
            exact key _ rfl rfl rfl rfl hnr.symm rfl rfl rfl (by simp [sent])
          · simp at hs
        | probe a k ok =>
          simp only [perform] at hs
          cases hs
          exact key _ rfl rfl rfl rfl rfl rfl rfl rfl (by simp [sent])
        | sleep ms =>
          simp only [perform] at hs
          cases hs
          exact key _ rfl rfl rfl rfl rfl rfl rfl rfl (by simp [sent])

theorem inv_step {probeOnce : Addr → Nat → Bool} {threads : Int} {ipv4Range : List Addr}
    {s s' : State} {t : Tid} (h : Inv probeOnce threads ipv4Range s)
    (hs : step probeOnce threads ipv4Range t s = some s') :
    Inv probeOnce threads ipv4Range s' := by
  unfold step at hs
  simp only [h.noPanic] at hs
  cases t with
  | main => exact inv_mainStep h hs
  | worker i => exact inv_workerStep h hs

theorem inv_run {probeOnce : Addr → Nat → Bool} {threads : Int} {ipv4Range : List Addr} :
    ∀ (schedule : List Tid) {s s' : State}, Inv probeOnce threads ipv4Range s →
      run probeOnce threads ipv4Range schedule s = some s' →
      Inv probeOnce threads ipv4Range s' := by
  intro schedule
  induction schedule with
  | nil =>
    intro s s' h hs
    simp only [run] at hs
    cases hs
    exact h
  | cons t ts ih =>
    intro s s' h hs
    simp only [run] at hs
    cases hst : step probeOnce threads ipv4Range t s with
    | none => simp [hst] at hs
    | some s1 =>
      rw [hst] at hs
      exact ih (inv_step h hst) hs

theorem inv_reachable {probeOnce : Addr → Nat → Bool} {threads : Int} {ipv4Range : List Addr}
    {s : State} (h : Reachable probeOnce threads ipv4Range s) :
    Inv probeOnce threads ipv4Range s := by
  obtain ⟨schedule, hs⟩ := h
  exact inv_run schedule (inv_init probeOnce threads ipv4Range) hs

/-! ## Progress and termination -/

theorem length_retryLoop_le (probeOnce : Addr → Nat → Bool) (a : Addr) :
    (retryLoop probeOnce a).length ≤ 4 := by
  rw [retryLoop_eq]
  split
  · simp
  · split <;> simp

theorem sum_map_le_length (f : Addr → Nat) (l : List Addr) (hf : ∀ a, f a ≤ 1) :
    (l.map f).sum ≤ l.length := by
  induction l with
  | nil => simp
  | cons x xs ih =>
    have := hf x
    simp only [List.map_cons, List.sum_cons, List.length_cons]
    omega

theorem length_sent (l : List Action) : (sent l).length = weight isResponded l := by
  induction l with
  | nil => rfl
  | cons x xs ih =>
    cases x <;> simp [sent, weight, isResponded] at ih ⊢ <;> omega

theorem responded_retryLoop_le (probeOnce : Addr → Nat → Bool) (a : Addr) :
    weight isResponded (retryLoop probeOnce a) ≤ 1 := by
  rw [retryLoop_eq]
  split
  · simp [weight, isResponded]
  · split <;> simp [weight, isResponded]

theorem exists_alive (ws : List Worker) (h : wsum Worker.alive ws ≠ 0) :
    ∃ (i : Nat) (w : Worker), ws[i]? = some w ∧ w ≠ Worker.exited := by
  by_contra hne
  apply h
  apply wsum_eq_zero
  intro w hw
  obtain ⟨i, hi⟩ : ∃ n : Nat, ws[n]? = some w := List.mem_iff_getElem?.mp hw
  by_cases hex : w = Worker.exited
  · subst hex; rfl
  · exact (hne ⟨i, w, hi, hex⟩).elim

/-- The result channel never fills up while a worker still has a send to do. -/
theorem resultChan_has_room {probeOnce : Addr → Nat → Bool} {threads : Int}
    {ipv4Range : List Addr} {s : State} (h : Inv probeOnce threads ipv4Range s)
    {i : Nat} {a : Addr} {rest : List Action}
    (hw : s.workers[i]? = some (Worker.running (Action.send a :: rest))) :
    s.resultChan.length < ipv4Range.length := by
  have h9 := h.account isResponded
  have h10 := congrArg List.length h.results
  rw [length_sent, List.length_append] at h10
  have hmem := wsum_pos_of_mem (fun w => weight isResponded w.script) s.workers _
    (List.getElem?_mem hw)
  simp only [script_running, weight_cons, isResponded] at hmem
  have hsum := sum_map_le_length (fun a => weight isResponded (retryLoop probeOnce a))
    (recvs s.trace) (responded_retryLoop_le probeOnce)
  have hq := congrArg List.length h.queue
  simp only [List.length_append] at hq
  omega

/-- Deadlock freedom: in every state satisfying the invariant, some goroutine
can move unless `parallelPingSweep` has returned. -/
theorem progress {probeOnce : Addr → Nat → Bool} {threads : Int} {ipv4Range : List Addr}
    {s : State} (h : Inv probeOnce threads ipv4Range s) (hpc : s.pc ≠ MainPC.finished) :
    ∃ t s', step probeOnce threads ipv4Range t s = some s' := by
  have hmain : (mainStep threads ipv4Range s).isSome = true →
      ∃ t s', step probeOnce threads ipv4Range t s = some s' := by
    intro hsome
    obtain ⟨s', hs'⟩ := Option.isSome_iff_exists.mp hsome
    exact ⟨Tid.main, s', by simp [step, h.noPanic, hs']⟩
  have hworker : ∀ i, (workerStep probeOnce ipv4Range.length i s).isSome = true →
      ∃ t s', step probeOnce threads ipv4Range t s = some s' := by
    intro i hsome
    obtain ⟨s', hs'⟩ := Option.isSome_iff_exists.mp hsome
    exact ⟨Tid.worker i, s', by simp [step, h.noPanic, hs']⟩
  cases hp : s.pc with
  | spawning count =>
    by_cases hlt : (count : Int) < threads
    · exact hmain (by simp [mainStep, hp, hlt])
    · exact hmain (by simp [mainStep, hp, hlt])
  | queueing rest =>
    cases rest with
    | nil => exact hmain (by simp [mainStep, hp])
    | cons ipv4 rest =>
      have hq := congrArg List.length h.queue
      simp only [hp, unqueued, List.length_append, List.length_cons] at hq
      have hlt : s.ipv4RangeChan.length < ipv4Range.length := by omega
      exact hmain (by simp [mainStep, hp, hlt])
  | waiting =>
    by_cases hwg : s.wg = 0
    · exact hmain (by simp [mainStep, hp, hwg])
    · have hne : wsum Worker.alive s.workers ≠ 0 := by
        rw [← h.counter]; exact hwg
      obtain ⟨i, w, hw, hex⟩ := exists_alive s.workers hne
      have hrc : s.rangeClosed = true := by rw [h.rangeClosed, hp]; rfl
      have hres : s.resultClosed = false := by rw [h.resultClosed, hp]; rfl
      cases w with
      | exited => exact absurd rfl hex
      | receiving =>
        cases hq : s.ipv4RangeChan with
        | nil => exact hworker i (by simp [workerStep, hw, hq, hrc, hwg])
        | cons a rest => exact hworker i (by simp [workerStep, hw, hq])
      | running script =>
        cases script with
        | nil => exact hworker i (by simp [workerStep, hw])
        | cons x rest =>
          cases x with
          | probe a k ok => exact hworker i (by simp [workerStep, hw, perform])
          | sleep ms => exact hworker i (by simp [workerStep, hw, perform])
          | send a =>
            have hroom := resultChan_has_room h hw
            exact hworker i (by simp [workerStep, hw, perform, hres, hroom])
  | closingResults => exact hmain (by simp [mainStep, hp])
  | draining =>
    have hres : s.resultClosed = true := by rw [h.resultClosed, hp]; rfl
    cases hq : s.resultChan with
    | nil => exact hmain (by simp [mainStep, hp, hq, hres])
    | cons a rest => exact hmain (by simp [mainStep, hp, hq])
  | finished => exact absurd hp hpc

/-- Every step lowers the fuel of the state. -/
theorem fuel_step {probeOnce : Addr → Nat → Bool} {threads : Int} {ipv4Range : List Addr}
    {s s' : State} {t : Tid} (h : Inv probeOnce threads ipv4Range s)
    (hs : step probeOnce threads ipv4Range t s = some s') :
    s'.fuel threads ipv4Range < s.fuel threads ipv4Range := by
  have hinv := (inv_step h hs).noPanic
  unfold step at hs
  split at hs
  · cases hs
  cases t with
  | main =>
    simp only [mainStep] at hs
    cases hp : s.pc with
    | spawning count =>
      simp only [hp] at hs
      split at hs
      · cases hs
        simp only [State.fuel, hp, MainPC.fuel, wsum_append, Worker.fuel]
        omega
      · cases hs
        simp only [State.fuel, hp, MainPC.fuel]
        omega
    | queueing rest =>
      cases rest with
      | nil =>
        simp only [hp] at hs
        cases hs
        simp only [State.fuel, hp, MainPC.fuel]
        omega
      | cons ipv4 rest =>
        simp only [hp] at hs
        split at hs
        · cases hs
          simp only [State.fuel, hp, MainPC.fuel, List.length_append, List.length_cons,
            List.length_nil]
          omega
        · cases hs
    | waiting =>
      simp only [hp] at hs
      split at hs
      · cases hs
        simp only [State.fuel, hp, MainPC.fuel]
        omega
      · cases hs
    | closingResults =>
      simp only [hp] at hs
      cases hs
      simp only [State.fuel, hp, MainPC.fuel]
      omega
    | draining =>
      simp only [hp] at hs
      split at hs
      · rename_i ipv4 rest hq
        cases hs
        simp only [State.fuel, hp, MainPC.fuel, hq, List.length_cons]
        omega
      · split at hs
        · cases hs
          simp only [State.fuel, hp, MainPC.fuel]
          omega
        · cases hs
    | finished => simp [hp] at hs
  | worker i =>
    simp only [workerStep] at hs
    cases hw : s.workers[i]? with
    | none => simp [hw] at hs
    | some w =>
      cases w with
      | exited => simp [hw] at hs
      | receiving =>
        simp only [hw] at hs
        cases hq : s.ipv4RangeChan with
        | cons a rest =>
          simp only [hq] at hs
          cases hs
          have := wsum_set Worker.fuel (Worker.running (retryLoop probeOnce a)) s.workers i _ hw
          have hlen := length_retryLoop_le probeOnce a
          simp only [State.fuel, Worker.fuel, List.length_cons, hq] at this ⊢
          omega
        | nil =>
          simp only [hq] at hs
          split at hs
          · split at hs
            · rename_i hcl hwg
              cases hs
              exact absurd hinv (by simp)
            · cases hs
              have := wsum_set Worker.fuel Worker.exited s.workers i _ hw
              simp only [State.fuel, Worker.fuel, List.length_nil, hq] at this ⊢
              omega
          · cases hs
      | running script =>
        cases script with
        | nil =>
          simp only [hw] at hs
          cases hs
          have := wsum_set Worker.fuel Worker.receiving s.workers i _ hw
          simp only [State.fuel, Worker.fuel, List.length_nil] at this ⊢
          omega
        | cons x rest =>
          simp only [hw] at hs
          have := wsum_set Worker.fuel (Worker.running rest) s.workers i _ hw
          cases x with
          | send a =>
            simp only [perform] at hs
            split at hs
            · cases hs
              exact absurd hinv (by simp)
            · split at hs
              · cases hs
                simp only [State.fuel, Worker.fuel, List.length_cons, List.length_append,
                  List.length_nil] at this ⊢
                omega
              · cases hs
          | probe a k ok =>
            simp only [perform] at hs
            cases hs
            simp only [State.fuel, Worker.fuel, List.length_cons] at this ⊢
            omega
          | sleep ms =>
            simp only [perform] at hs
            cases hs
            simp only [State.fuel, Worker.fuel, List.length_cons] at this ⊢
            omega

/-- A run takes at most as many steps as the fuel it burns. -/
theorem run_length_le {probeOnce : Addr → Nat → Bool} {threads : Int} {ipv4Range : List Addr} :
    ∀ (schedule : List Tid) {s s' : State}, Inv probeOnce threads ipv4Range s →
      run probeOnce threads ipv4Range schedule s = some s' →
      schedule.length + s'.fuel threads ipv4Range ≤ s.fuel threads ipv4Range := by
  intro schedule
  induction schedule with
  | nil =>
    intro s s' _ hs
    simp only [run] at hs
    cases hs
    simp
  | cons t ts ih =>
    intro s s' h hs
    simp only [run] at hs
    cases hst : step probeOnce threads ipv4Range t s with
    | none => simp [hst] at hs
    | some s1 =>
      rw [hst] at hs
      have h1 := fuel_step h hst
      have h2 := ih (inv_step h hst) hs
      simp only [List.length_cons]
      omega

theorem run_append (probeOnce : Addr → Nat → Bool) (threads : Int) (ipv4Range : List Addr) :
    ∀ (l₁ l₂ : List Tid) (s : State),
      run probeOnce threads ipv4Range (l₁ ++ l₂) s =
        (run probeOnce threads ipv4Range l₁ s).bind (run probeOnce threads ipv4Range l₂) := by
  intro l₁
  induction l₁ with
  | nil => intro l₂ s; simp [run]
  | cons t ts ih =>
    intro l₂ s
    simp only [List.cons_append, run]
    cases step probeOnce threads ipv4Range t s with
    | none => simp
    | some s1 => simp [ih]

/-- From every state satisfying the invariant some schedule runs
`parallelPingSweep` to its end. -/
theorem exists_run_to_end {probeOnce : Addr → Nat → Bool} {threads : Int}
    {ipv4Range : List Addr} :
    ∀ (n : Nat) (s : State), s.fuel threads ipv4Range ≤ n →
      Inv probeOnce threads ipv4Range s →
      ∃ schedule s', run probeOnce threads ipv4Range schedule s = some s' ∧
        s'.pc = MainPC.finished := by
  intro n
  induction n with
  | zero =>
    intro s hn h
    by_cases hpc : s.pc = MainPC.finished
    · exact ⟨[], s, rfl, hpc⟩
    · obtain ⟨t, s1, hst⟩ := progress h hpc
      have := fuel_step h hst
      omega
  | succ k ih =>
    intro s hn h
    by_cases hpc : s.pc = MainPC.finished
    · exact ⟨[], s, rfl, hpc⟩
    · obtain ⟨t, s1, hst⟩ := progress h hpc
      have hlt := fuel_step h hst
      obtain ⟨schedule, s', hrun, hfin⟩ := ih s1 (by omega) (inv_step h hst)
      exact ⟨t :: schedule, s', by simp [run, hst, hrun], hfin⟩

/-! ## What holds once the workers are joined -/

theorem count_sent (x : Addr) (l : List Action) :
    (sent l).count x = weight (isSendOf x) l := by
  induction l with
  | nil => rfl
  | cons y ys ih =>
    cases y with
    | send a =>
      simp only [sent, List.filterMap_cons, weight_cons, isSendOf] at ih ⊢
      rw [List.count_cons, ih]
      by_cases h : a = x
      · simp [h]
        omega
      · simp [h]
    | probe a k ok => simpa [sent, weight, isSendOf] using ih
    | sleep ms => simpa [sent, weight, isSendOf] using ih

theorem weight_add (f g : Action → Nat) (l : List Action) :
    weight (fun x => f x + g x) l = weight f l + weight g l := by
  induction l with
  | nil => rfl
  | cons y ys ih =>
    simp only [weight_cons, ih]
    omega

theorem sends_retryLoop (probeOnce : Addr → Nat → Bool) (x a : Addr) :
    weight (isSendOf x) (retryLoop probeOnce a) =
      if responds probeOnce a = true ∧ a = x then 1 else 0 := by
  rw [retryLoop_eq]
  unfold responds
  by_cases hx : a = x <;> cases h1 : probeOnce a 1 <;> cases h2 : probeOnce a 2 <;>
    simp [weight, isSendOf, hx]

theorem probes_retryLoop (probeOnce : Addr → Nat → Bool) (a : Addr) :
    weight isProbe (retryLoop probeOnce a) = if probeOnce a 1 = true then 1 else 2 := by
  rw [retryLoop_eq]
  cases h1 : probeOnce a 1 <;> cases h2 : probeOnce a 2 <;> simp [weight, isProbe]

theorem probesOf_retryLoop (probeOnce : Addr → Nat → Bool) (x a : Addr) :
    weight (isProbeOf x) (retryLoop probeOnce a) =
      if a = x then (if probeOnce a 1 = true then 1 else 2) else 0 := by
  rw [retryLoop_eq]
  by_cases hx : a = x <;> cases h1 : probeOnce a 1 <;> cases h2 : probeOnce a 2 <;>
    simp [weight, isProbeOf, hx]

theorem verdict_retryLoop (probeOnce : Addr → Nat → Bool) (a : Addr) :
    weight (fun x => isResponded x + isNotResponded x) (retryLoop probeOnce a) = 1 := by
  rw [retryLoop_eq]
  cases h1 : probeOnce a 1 <;> cases h2 : probeOnce a 2 <;>
    simp [weight, isResponded, isNotResponded]

theorem sum_eq_count_filter (p : Addr → Bool) (x : Addr) (l : List Addr) :
    (l.map fun a => if p a = true ∧ a = x then 1 else 0).sum = (l.filter p).count x := by
  induction l with
  | nil => rfl
  | cons y ys ih =>
    simp only [List.map_cons, List.sum_cons, ih, List.filter_cons]
    cases hp : p y
    · simp
    · by_cases hx : y = x
      · simp [hx]
        omega
      · simp [hx, List.count_cons]

theorem sum_between_count (f : Addr → Nat) (x : Addr) (l : List Addr)
    (h0 : ∀ a, a ≠ x → f a = 0) (h1 : ∀ a, a = x → 1 ≤ f a ∧ f a ≤ 2) :
    l.count x ≤ (l.map f).sum ∧ (l.map f).sum ≤ 2 * l.count x := by
  induction l with
  | nil => simp
  | cons y ys ih =>
    simp only [List.map_cons, List.sum_cons, List.count_cons]
    by_cases hx : y = x
    · have := h1 y hx
      simp only [hx, beq_self_eq_true, if_true] at this ⊢
      omega
    · have := h0 y hx
      have hb : (y == x) = false := by simpa using hx
      simp only [hb, Bool.false_eq_true, if_false, this]
      omega

theorem sum_between_length (f : Addr → Nat) (l : List Addr)
    (h1 : ∀ a, 1 ≤ f a ∧ f a ≤ 2) :
    l.length ≤ (l.map f).sum ∧ (l.map f).sum ≤ 2 * l.length := by
  induction l with
  | nil => simp
  | cons y ys ih =>
    have := h1 y
    simp only [List.map_cons, List.sum_cons, List.length_cons]
    omega

theorem sum_const_one (f : Addr → Nat) (l : List Addr) (h1 : ∀ a, f a = 1) :
    (l.map f).sum = l.length := by
  induction l with
  | nil => simp
  | cons y ys ih =>
    simp only [List.map_cons, List.sum_cons, List.length_cons, h1 y, ih]
    omega

/-- Once the main goroutine is past `wg.Wait()` (with at least one worker),
every worker has returned, the queue is empty, every address of the input was
taken from the queue in order, and every quantity counted over the trace is the
sum of its values over one complete retry loop per input address. -/
theorem joined_facts {probeOnce : Addr → Nat → Bool} {threads : Int} {ipv4Range : List Addr}
    {s : State} (h : Inv probeOnce threads ipv4Range s) (hW : 1 ≤ threads)
    (hj : s.pc.joined = true) :
    (∀ w ∈ s.workers, w = Worker.exited) ∧ s.ipv4RangeChan = [] ∧
      recvs s.trace = ipv4Range ∧
      (∀ m : Action → Nat, weight m (acts s.trace) =
        (ipv4Range.map fun a => weight m (retryLoop probeOnce a)).sum) ∧
      (∀ i, actsBy i s.trace = pingSweep probeOnce (recvsBy i s.trace)) := by
  have hall := h.joined hj
  have hlen : 1 ≤ s.workers.length := by
    have := h.spawned
    cases hp : s.pc <;> simp only [hp, MainPC.joined] at this hj <;> first | omega | cases hj
  have hex : Worker.exited ∈ s.workers := by
    cases hws : s.workers with
    | nil => simp [hws] at hlen
    | cons w ws =>
      have := hall w (by simp [hws])
      simp [this]
  have hq := (h.drained hex).1
  have hrecv : recvs s.trace = ipv4Range := by
    have := h.queue
    rw [hq] at this
    cases hp : s.pc <;> simp only [hp, MainPC.joined, unqueued, List.append_nil] at this hj <;>
      first | exact this | cases hj
  refine ⟨hall, hq, hrecv, ?_, ?_⟩
  · intro m
    have := h.account m
    have hz : wsum (fun w => weight m w.script) s.workers = 0 := by
      apply wsum_eq_zero
      intro w hw
      rw [hall w hw]
      rfl
    rw [hz, hrecv] at this
    simpa using this
  · intro i
    have := h.perWorker i
    have hs : scriptAt s.workers i = [] := by
      unfold scriptAt
      cases hw : s.workers[i]? with
      | none => rfl
      | some w =>
        rw [hall w (List.getElem?_mem hw)]
        rfl
    rw [hs] at this
    simpa using this

theorem joined_of_readsResults {pc : MainPC} (h : pc.readsResults = true) :
    pc.joined = true := by
  cases pc <;> simp [MainPC.readsResults, MainPC.joined] at h ⊢

theorem sweepWith_eq_some {probeOnce : Addr → Nat → Bool} {threads : Int}
    {ipv4Range : List Addr} {schedule : List Tid} {out : List Addr}
    (h : sweepWith probeOnce threads ipv4Range schedule = some out) :
    ∃ s, run probeOnce threads ipv4Range schedule init = some s ∧ s.pc = MainPC.finished ∧
      s.stdout = out := by
  unfold sweepWith at h
  cases hr : run probeOnce threads ipv4Range schedule init with
  | none => simp [hr] at h
  | some s =>
    simp only [hr] at h
    split at h
    · rename_i hpc
      cases h
      exact ⟨s, rfl, hpc, rfl⟩
    · cases h

/-- Claim C1: with at least one worker, every partial run of `parallelPingSweep`
extends to a complete one (so a result is produced under every schedule that
keeps picking goroutines that can move), and the addresses printed by a
complete run are, up to order, the input addresses that answered on attempt 1
or attempt 2, once per input occurrence, whatever the worker count and the
schedule; so the result is a subset of the input and has no duplicates when the
input has none. No run panics or takes more than `5 + 11 n + 2 W` steps. -/
theorem sweep_result (probeOnce : Addr → Nat → Bool) (threads : Int) (ipv4Range : List Addr)
    (hW : 1 ≤ threads) :
    (∃ schedule out, sweepWith probeOnce threads ipv4Range schedule = some out) ∧
    (∀ schedule s, run probeOnce threads ipv4Range schedule init = some s →
      ∃ more out, sweepWith probeOnce threads ipv4Range (schedule ++ more) = some out) ∧
    (∀ schedule s, run probeOnce threads ipv4Range schedule init = some s →
      s.panicked = false ∧
      schedule.length ≤ 5 + 11 * ipv4Range.length + 2 * threads.toNat) ∧
    (∀ schedule out, sweepWith probeOnce threads ipv4Range schedule = some out →
      out.Perm (ipv4Range.filter (responds probeOnce)) ∧
      (∀ a ∈ out, a ∈ ipv4Range) ∧
      (ipv4Range.Nodup → out.Nodup)) := by
  have hext : ∀ schedule s, run probeOnce threads ipv4Range schedule init = some s →
      ∃ more out, sweepWith probeOnce threads ipv4Range (schedule ++ more) = some out := by
    intro schedule s hs
    have hinv := inv_run schedule (inv_init probeOnce threads ipv4Range) hs
    obtain ⟨more, s', hrun, hfin⟩ := exists_run_to_end _ s (Nat.le_refl _) hinv
    refine ⟨more, s'.stdout, ?_⟩
    unfold sweepWith
    rw [run_append, hs]
    simp [hrun, hfin]
  refine ⟨?_, hext, ?_, ?_⟩
  · obtain ⟨more, out, h⟩ := hext [] init rfl
    exact ⟨[] ++ more, out, h⟩
  · intro schedule s hs
    have := run_length_le schedule (inv_init probeOnce threads ipv4Range) hs
    have h0 : init.fuel threads ipv4Range = 5 + 11 * ipv4Range.length + 2 * threads.toNat := by
      simp [State.fuel, init, MainPC.fuel, wsum]
    exact ⟨(inv_run schedule (inv_init probeOnce threads ipv4Range) hs).noPanic, by omega⟩
  · intro schedule out hout
    obtain ⟨s, hrun, hfin, hstd⟩ := sweepWith_eq_some hout
    have hinv := inv_run schedule (inv_init probeOnce threads ipv4Range) hrun
    have hj : s.pc.joined = true := by rw [hfin]; rfl
    obtain ⟨-, -, -, hacc, -⟩ := joined_facts hinv hW hj
    have hres := hinv.results
    rw [hinv.finished hfin, List.append_nil, hstd] at hres
    have hperm : out.Perm (ipv4Range.filter (responds probeOnce)) := by
      rw [List.perm_iff_count]
      intro x
      rw [hres, count_sent, hacc (isSendOf x)]
      simp only [sends_retryLoop]
      exact sum_eq_count_filter (responds probeOnce) x ipv4Range
    refine ⟨hperm, ?_, ?_⟩
    · intro a ha
      have := (hperm.mem_iff).mp ha
      exact (List.mem_filter.mp this).1
    · intro hnd
      exact (hperm.nodup_iff).mpr (hnd.filter _)

set_option maxRecDepth 100000 in
theorem sweep_result_witness :
    ((1 : Int) ≤ 1 ∧ (1 : Int) ≤ 20 ∧ (1 : Int) ≤ 254) ∧
    ∀ schedule out,
      (sweepWith fakeProber 1 net10 schedule = some out ∨
        sweepWith fakeProber 20 net10 schedule = some out ∨
        sweepWith fakeProber 254 net10 schedule = some out) →
      out.Perm [Addr.v4 10 0 0 1, Addr.v4 10 0 0 254] := by
  have hf : net10.filter (responds fakeProber) = [Addr.v4 10 0 0 1, Addr.v4 10 0 0 254] := by
    decide
  refine ⟨by decide, ?_⟩
  intro schedule out h
  rw [← hf]
  rcases h with h | h | h
  · exact ((sweep_result fakeProber 1 net10 (by decide)).2.2.2 schedule out h).1
  · exact ((sweep_result fakeProber 20 net10 (by decide)).2.2.2 schedule out h).1
  · exact ((sweep_result fakeProber 254 net10 (by decide)).2.2.2 schedule out h).1

/-- Claim C4: with at least one worker, `parallelPingSweep` does come to read the
results, and whenever it does, every queued address was taken from the queue
exactly once (the addresses taken are the input, in order), the queue is empty
and every worker has returned, every worker performed exactly the complete
retry loops of the addresses it took, each address got between one and two
probe attempts per occurrence, the total number of attempts lies between `n` and
`2n`, and the responded count (sends, which is what the result channel and the
output hold) plus the non-responded count (failed second attempts) is `n`. -/
theorem all_addresses_dispositioned (probeOnce : Addr → Nat → Bool) (threads : Int)
    (ipv4Range : List Addr) (hW : 1 ≤ threads) :
    (∃ s, Reachable probeOnce threads ipv4Range s ∧ s.pc.readsResults = true) ∧
    ∀ s, Reachable probeOnce threads ipv4Range s → s.pc.readsResults = true →
      recvs s.trace = ipv4Range ∧
      s.ipv4RangeChan = [] ∧
      (∀ w ∈ s.workers, w = Worker.exited) ∧
      (∀ i, actsBy i s.trace = pingSweep probeOnce (recvsBy i s.trace)) ∧
      (∀ x, ipv4Range.count x ≤ weight (isProbeOf x) (acts s.trace) ∧
        weight (isProbeOf x) (acts s.trace) ≤ 2 * ipv4Range.count x) ∧
      ipv4Range.length ≤ weight isProbe (acts s.trace) ∧
      weight isProbe (acts s.trace) ≤ 2 * ipv4Range.length ∧
      weight isResponded (acts s.trace) + weight isNotResponded (acts s.trace) =
        ipv4Range.length ∧
      s.stdout.length + s.resultChan.length = weight isResponded (acts s.trace) := by
  constructor
  · obtain ⟨schedule, s, hrun, hfin⟩ :=
      @exists_run_to_end probeOnce threads ipv4Range
        _ init (Nat.le_refl _) (inv_init probeOnce threads ipv4Range)
    exact ⟨s, ⟨schedule, hrun⟩, by rw [hfin]; rfl⟩
  · intro s hs hr
    have hinv := inv_reachable hs
    obtain ⟨hall, hq, hrecv, hacc, hper⟩ := joined_facts hinv hW (joined_of_readsResults hr)
    refine ⟨hrecv, hq, hall, hper, ?_, ?_, ?_, ?_, ?_⟩
    · intro x
      rw [hacc (isProbeOf x)]
      apply sum_between_count
      · intro a ha
        rw [probesOf_retryLoop, if_neg ha]
      · intro a ha
        rw [probesOf_retryLoop, if_pos ha]
        split <;> omega
    · rw [hacc isProbe]
      refine (sum_between_length _ ipv4Range ?_).1
      intro a
      rw [probes_retryLoop]
      split <;> omega
    · rw [hacc isProbe]
      refine (sum_between_length _ ipv4Range ?_).2
      intro a
      rw [probes_retryLoop]
      split <;> omega
    · rw [← weight_add, hacc]
      exact sum_const_one _ ipv4Range (verdict_retryLoop probeOnce)
    · rw [← length_sent, ← hinv.results, List.length_append]

theorem all_addresses_dispositioned_witness :
    (1 : Int) ≤ 20 ∧
    ((∃ s, Reachable fakeProber 20 net10 s ∧ s.pc.readsResults = true) ∧
    ∀ s, Reachable fakeProber 20 net10 s → s.pc.readsResults = true →
      recvs s.trace = net10 ∧
      s.ipv4RangeChan = [] ∧
      (∀ w ∈ s.workers, w = Worker.exited) ∧
      (∀ i, actsBy i s.trace = pingSweep fakeProber (recvsBy i s.trace)) ∧
      (∀ x, net10.count x ≤ weight (isProbeOf x) (acts s.trace) ∧
        weight (isProbeOf x) (acts s.trace) ≤ 2 * net10.count x) ∧
      net10.length ≤ weight isProbe (acts s.trace) ∧
      weight isProbe (acts s.trace) ≤ 2 * net10.length ∧
      weight isResponded (acts s.trace) + weight isNotResponded (acts s.trace) =
        net10.length ∧
      s.stdout.length + s.resultChan.length = weight isResponded (acts s.trace)) :=
  ⟨by decide, all_addresses_dispositioned fakeProber 20 net10 (by decide)⟩

/-- Claim C9: on a machine with `n >= 1` logical CPUs (and `20 * n` within the
range of `int`), `threads` is `min(254, 20 * n)`, lies between 20 and 254, never
exceeds the 254 addresses of a sweep, is 254 exactly when `n >= 13`, and
`parallelPingSweep` starts exactly that many workers: while the start loop runs
the pool holds `count <= threads` workers, and from then on exactly `threads`;
a state past the start loop is reached, and every partial run extends to a
complete one, at whose end exactly `threads` workers have been started. -/
theorem worker_count (numCPU : Int) (h1 : 1 ≤ numCPU) (h2 : numCPU * 20 < 2 ^ 63) :
    threads numCPU = min 254 (20 * numCPU) ∧
    20 ≤ threads numCPU ∧ threads numCPU ≤ 254 ∧
    threads numCPU ≤ (net10.length : Int) ∧
    (threads numCPU = 254 ↔ 13 ≤ numCPU) ∧
    (∀ probeOnce ipv4Range schedule,
      parallelPingSweep probeOnce numCPU ipv4Range schedule =
        sweepWith probeOnce (min 254 (20 * numCPU)) ipv4Range schedule) ∧
    (∀ probeOnce ipv4Range s, Reachable probeOnce (threads numCPU) ipv4Range s →
      match s.pc with
      | MainPC.spawning count => s.workers.length = count ∧ (count : Int) ≤ threads numCPU
      | _ => (s.workers.length : Int) = threads numCPU) ∧
    (∀ probeOnce ipv4Range, ∃ s, Reachable probeOnce (threads numCPU) ipv4Range s ∧
      s.pc = MainPC.finished ∧ (s.workers.length : Int) = threads numCPU ∧
      (s.workers.length : Int) = min 254 (20 * numCPU)) ∧
    (∀ probeOnce ipv4Range schedule s,
      run probeOnce (threads numCPU) ipv4Range schedule init = some s →
      ∃ more s', run probeOnce (threads numCPU) ipv4Range (schedule ++ more) init = some s' ∧
        s'.pc = MainPC.finished ∧ (s'.workers.length : Int) = threads numCPU) := by
  have hw : wrapInt (numCPU * 20) = numCPU * 20 := by
    unfold wrapInt
    omega
  have ht : threads numCPU = min 254 (20 * numCPU) := by
    unfold threads
    rw [hw, Int.mul_comm]
  have hlen : (net10.length : Int) = 254 := by simp [net10]
  have hpos : max (threads numCPU) 0 = threads numCPU := by omega
  have hext : ∀ (probeOnce : Addr → Nat → Bool) (ipv4Range : List Addr) (schedule : List Tid)
      (s : State), run probeOnce (threads numCPU) ipv4Range schedule init = some s →
      ∃ more s', run probeOnce (threads numCPU) ipv4Range (schedule ++ more) init = some s' ∧
        s'.pc = MainPC.finished ∧ (s'.workers.length : Int) = threads numCPU := by
    intro probeOnce ipv4Range schedule s hs
    have hinv := inv_run schedule (inv_init probeOnce (threads numCPU) ipv4Range) hs
    obtain ⟨more, s', hrun, hfin⟩ := exists_run_to_end _ s (Nat.le_refl _) hinv
    have hall : run probeOnce (threads numCPU) ipv4Range (schedule ++ more) init = some s' := by
      rw [run_append, hs]
      exact hrun
    have hsp := (inv_run more hinv hrun).spawned
    rw [hfin, hpos] at hsp
    exact ⟨more, s', hall, hfin, hsp⟩
  refine ⟨ht, by omega, by omega, by omega, by omega, ?_, ?_, ?_, hext⟩
  · intro probeOnce ipv4Range schedule
    unfold parallelPingSweep
    rw [ht]
  · intro probeOnce ipv4Range s hs
    have hsp := (inv_reachable hs).spawned
    rw [hpos] at hsp
    exact hsp
  · intro probeOnce ipv4Range
    obtain ⟨more, s', hrun, hfin, hlen'⟩ := hext probeOnce ipv4Range [] init rfl
    exact ⟨s', ⟨[] ++ more, hrun⟩, hfin, hlen', by rw [hlen', ht]⟩

theorem worker_count_witness :
    (1 : Int) ≤ 4 ∧ (4 : Int) * 20 < 2 ^ 63 ∧
    (threads 4 = min 254 (20 * 4) ∧
    20 ≤ threads 4 ∧ threads 4 ≤ 254 ∧
    threads 4 ≤ (net10.length : Int) ∧
    (threads 4 = 254 ↔ (13 : Int) ≤ 4) ∧
    (∀ probeOnce ipv4Range schedule,
      parallelPingSweep probeOnce 4 ipv4Range schedule =
        sweepWith probeOnce (min 254 (20 * 4)) ipv4Range schedule) ∧
    (∀ probeOnce ipv4Range s, Reachable probeOnce (threads 4) ipv4Range s →
      match s.pc with
      | MainPC.spawning count => s.workers.length = count ∧ (count : Int) ≤ threads 4
      | _ => (s.workers.length : Int) = threads 4) ∧
    (∀ probeOnce ipv4Range, ∃ s, Reachable probeOnce (threads 4) ipv4Range s ∧
      s.pc = MainPC.finished ∧ (s.workers.length : Int) = threads 4 ∧
      (s.workers.length : Int) = min 254 (20 * 4)) ∧
    (∀ probeOnce ipv4Range schedule s,
      run probeOnce (threads 4) ipv4Range schedule init = some s →
      ∃ more s', run probeOnce (threads 4) ipv4Range (schedule ++ more) init = some s' ∧
        s'.pc = MainPC.finished ∧ (s'.workers.length : Int) = threads 4)) :=
  ⟨by decide, by decide, worker_count 4 (by decide) (by decide)⟩

/-! ## Menu selection -/

theorem judge_outOfRange (menu : List Str) (line : Str) (n : Int)
    (hparse : Atoi line = some n) (hn : (menu.length : Int) ≤ n) :
    judge menu (some line) = Except.error Output.outOfRange := by
  have : (menu.length : Int) - 1 < n := by omega
  simp [judge, hparse, this]

theorem empty_menu_no_range (parseIPv6 : Str → Option Addr) :
    ∀ (scans : List (Option Str)) (r : List Addr),
      (selectIPv4SweepRange parseIPv6 [] scans).2 ≠ Selected.range r := by
  intro scans
  induction scans with
  | nil => intro r; simp [selectIPv4SweepRange]
  | cons scan rest ih =>
    intro r
    simp only [selectIPv4SweepRange]
    cases hj : judge [] scan with
    | error message => exact ih r
    | ok number =>
      have hneg : number < 0 := by
        unfold judge at hj
        cases scan with
        | none => simp at hj
        | some input =>
          simp only at hj
          cases ha : Atoi input with
          | none => simp [ha] at hj
          | some m =>
            simp only [ha, List.length_nil] at hj
            split at hj
            · cases hj
            · rename_i hlt
              cases hj
              simp at hlt
              omega
      simp [sweepRange, hneg]

/-- Claim C7: for every menu, the empty one included, an input line that parses
to an integer `n >= len(menu)` is judged out of range: the loop prints the menu,
clears the screen, prints the out-of-range message and goes on with the next
line exactly as if this line had not been typed, so `n` never indexes the menu
and no range comes from it (with no further input the function is still
prompting). With a zero-length menu no input whatever yields a range. -/
theorem out_of_range_rejected (parseIPv6 : Str → Option Addr) (menu : List Str) (line : Str)
    (n : Int) (rest : List (Option Str))
    (hparse : Atoi line = some n) (hn : (menu.length : Int) ≤ n) :
    judge menu (some line) = Except.error Output.outOfRange ∧
    selectIPv4SweepRange parseIPv6 menu (some line :: rest) =
      (Output.menu menu :: Output.clear :: Output.outOfRange ::
        (selectIPv4SweepRange parseIPv6 menu rest).1,
       (selectIPv4SweepRange parseIPv6 menu rest).2) ∧
    selectIPv4SweepRange parseIPv6 menu [some line] =
      ([Output.menu menu, Output.clear, Output.outOfRange, Output.menu menu],
       Selected.prompting) ∧
    (∀ scans r, (selectIPv4SweepRange parseIPv6 [] scans).2 ≠ Selected.range r) := by
  have hj := judge_outOfRange menu line n hparse hn
  refine ⟨hj, ?_, ?_, empty_menu_no_range parseIPv6⟩
  · simp [selectIPv4SweepRange, hj]
  · simp [selectIPv4SweepRange, hj]

theorem out_of_range_rejected_witness :
    Atoi "99".toList = some 99 ∧
    ((["192.168.1.0/24".toList, "10.0.0.0/8".toList].length : Int) ≤ 99) ∧
    Atoi "0".toList = some 0 ∧ ((([] : List Str).length : Int) ≤ 0) ∧
    selectIPv4SweepRange (fun _ => none) ["192.168.1.0/24".toList, "10.0.0.0/8".toList]
        [some "abc".toList, some "99".toList] =
      ([Output.menu ["192.168.1.0/24".toList, "10.0.0.0/8".toList], Output.clear,
        Output.notANumber,
        Output.menu ["192.168.1.0/24".toList, "10.0.0.0/8".toList], Output.clear,
        Output.outOfRange,
        Output.menu ["192.168.1.0/24".toList, "10.0.0.0/8".toList]],
       Selected.prompting) ∧
    selectIPv4SweepRange (fun _ => none) ["192.168.1.0/24".toList, "10.0.0.0/8".toList]
        [some "99".toList] =
      ([Output.menu ["192.168.1.0/24".toList, "10.0.0.0/8".toList], Output.clear,
        Output.outOfRange,
        Output.menu ["192.168.1.0/24".toList, "10.0.0.0/8".toList]],
       Selected.prompting) ∧
    selectIPv4SweepRange (fun _ => none) [] [some "0".toList] =
      ([Output.menu [], Output.clear, Output.outOfRange, Output.menu []],
       Selected.prompting) :=
  ⟨by decide, by decide, by decide, by decide, by decide,
    (out_of_range_rejected (fun _ => none) ["192.168.1.0/24".toList, "10.0.0.0/8".toList]
      "99".toList 99 [] (by decide) (by decide)).2.2.1,
    (out_of_range_rejected (fun _ => none) [] "0".toList 0 [] (by decide) (by decide)).2.2.1⟩

/-- Claim C6, the failing input: against the one-entry menu `192.168.1.0/24` the
line `-1` parses to -1, passes the only range check (`len-1 < number` is
`0 < -1`), is accepted as the selection, and indexing the menu with it panics:
no inline error, no new prompt. -/
theorem negative_selection_panics :
    Atoi "-1".toList = some (-1) ∧
    judge ["192.168.1.0/24".toList] (some "-1".toList) = Except.ok (-1) ∧
    selectIPv4SweepRange (fun _ => none) ["192.168.1.0/24".toList]
        [some "-1".toList, some "0".toList] =
      ([Output.menu ["192.168.1.0/24".toList]], Selected.panicked) :=
  ⟨by decide, by rfl, by decide⟩

/-- Claim C8, the failing input: an interface that is up and not loopback with
the address `10.1.2.3/8` gives the menu entry `10.0.0.0/8`, and one with
`192.168.1.130/25` gives `192.168.1.128/25`: the prefix length of the
interface is kept, it is not 24. -/
theorem menu_entry_not_slash24 :
    getNICipv4NetworkAddress (fun _ => none)
        (some [{ up := true, loopback := false, addrs := some ["10.1.2.3/8".toList] }]) =
      some ["10.0.0.0/8".toList] ∧
    getNICipv4NetworkAddress (fun _ => none)
        (some [{ up := true, loopback := false,
                 addrs := some ["192.168.1.130/25".toList] }]) =
      some ["192.168.1.128/25".toList] := by
  decide

/-! ## Decimal text and the IPv4 parser -/

theorem isDigit_digitChar (d : Nat) : isDigit (digitChar d) = true := by
  rcases d with _ | _ | _ | _ | _ | _ | _ | _ | _ | d <;> rfl

theorem digitValue_digitChar (d : Nat) (h : d ≤ 9) : digitValue (digitChar d) = d := by
  interval_cases d <;> rfl

theorem digitChar_mem (d : Nat) :
    digitChar d ∈ ['0', '1', '2', '3', '4', '5', '6', '7', '8', '9'] := by
  rcases d with _ | _ | _ | _ | _ | _ | _ | _ | _ | d <;> simp [digitChar]

theorem digitChar_ne_dot (d : Nat) : digitChar d ≠ '.' := by
  intro h
  have := digitChar_mem d
  rw [h] at this
  revert this
  decide

theorem digitChar_no_separator (d : Nat) :
    ¬ (digitChar d = '.' ∨ digitChar d = ':' ∨ digitChar d = '%') := by
  intro h
  have hm := digitChar_mem d
  rcases h with h | h | h <;> rw [h] at hm <;> revert hm <;> decide

theorem formatNat_one_digit (n : Nat) (h : n < 10) : formatNat n = [digitChar n] := by
  simp [formatNat, formatDigits, h]

theorem formatNat_two_digits (n : Nat) (h1 : 10 ≤ n) (h2 : n < 100) :
    formatNat n = [digitChar (n / 10), digitChar (n % 10)] := by
  obtain ⟨m, rfl⟩ : ∃ m, n = m + 1 := ⟨n - 1, by omega⟩
  have e1 : ¬ (m + 1 < 10) := by omega
  have e2 : (m + 1) / 10 < 10 := by omega
  simp [formatNat, formatDigits, e1, e2]

theorem formatNat_three_digits (n : Nat) (h1 : 100 ≤ n) (h2 : n < 1000) :
    formatNat n = [digitChar (n / 100), digitChar (n / 10 % 10), digitChar (n % 10)] := by
  obtain ⟨m, rfl⟩ : ∃ m, n = m + 2 := ⟨n - 2, by omega⟩
  have e1 : ¬ (m + 2 < 10) := by omega
  have e2 : ¬ ((m + 2) / 10 < 10) := by omega
  have e3 : (m + 2) / 10 / 10 < 10 := by omega
  have e4 : (m + 2) / 10 / 10 = (m + 2) / 100 := by omega
  simp only [formatNat, formatDigits, e1, e2, e3, if_false, if_true]
  rw [e4]

/-- The decimal text of a number below 1000 is a non-empty run of digits. -/
theorem formatNat_digits (n : Nat) (h : n < 1000) :
    formatNat n ≠ [] ∧ ∀ c ∈ formatNat n, ∃ d, c = digitChar d := by
  by_cases h1 : n < 10
  · rw [formatNat_one_digit n h1]
    simp
  · by_cases h2 : n < 100
    · rw [formatNat_two_digits n (by omega) h2]
      simp
    · rw [formatNat_three_digits n (by omega) h]
      simp

theorem Itoa_natCast (n : Nat) : Itoa (n : Int) = formatNat n := by
  unfold Itoa
  have : ¬ ((n : Int) < 0) := by omega
  simp [this]

theorem parse_digit (d : Nat) (hd : d ≤ 9) (cs : Str) (val digLen : Nat) (fields : List Nat)
    (prev : Option Char) (h1 : ¬ (digLen = 1 ∧ val = 0)) (h2 : val * 10 + d ≤ 255) :
    parseIPv4Fields (digitChar d :: cs) val digLen fields prev =
      parseIPv4Fields cs (val * 10 + d) (digLen + 1) fields (some (digitChar d)) := by
  have h3 : ¬ (val * 10 + d > 255) := by omega
  rw [parseIPv4Fields]
  simp only [isDigit_digitChar, digitValue_digitChar d hd, if_true, if_neg h1, if_neg h3]

theorem parse_dot (last : Nat) (c : Char) (cs : Str) (val digLen : Nat) (fields : List Nat)
    (hf : fields.length < 3) :
    parseIPv4Fields ('.' :: c :: cs) val digLen fields (some (digitChar last)) =
      parseIPv4Fields (c :: cs) 0 0 (fields ++ [val]) (some '.') := by
  have h1 : isDigit '.' = false := by decide
  have h2 : ¬ (some (digitChar last) = none ∨ c :: cs = [] ∨
      some (digitChar last) = some '.') := by
    simp [digitChar_ne_dot]
  have h3 : ¬ (fields.length = 3) := by omega
  rw [parseIPv4Fields]
  simp only [h1, Bool.false_eq_true, if_false, if_true, if_neg h2, if_neg h3]

/-- Reading the decimal text of an octet leaves the parser with that value. -/
theorem parse_octet (n : Nat) (hn : n ≤ 255) :
    ∃ digLen last, ∀ (tail : Str) (fields : List Nat) (prev : Option Char),
      parseIPv4Fields (formatNat n ++ tail) 0 0 fields prev =
        parseIPv4Fields tail n digLen fields (some (digitChar last)) := by
  by_cases h1 : n < 10
  · refine ⟨1, n, fun tail fields prev => ?_⟩
    rw [formatNat_one_digit n h1, List.singleton_append,
      parse_digit n (by omega) tail 0 0 fields prev (by omega) (by omega)]
    have e : 0 * 10 + n = n := by omega
    rw [e]
  · by_cases h2 : n < 100
    · refine ⟨2, n % 10, fun tail fields prev => ?_⟩
      rw [formatNat_two_digits n (by omega) h2]
      simp only [List.cons_append, List.nil_append]
      rw [parse_digit (n / 10) (by omega) _ 0 0 fields prev (by omega) (by omega),
        parse_digit (n % 10) (by omega) _ _ _ fields _ (by omega) (by omega)]
      have e : (0 * 10 + n / 10) * 10 + n % 10 = n := by omega
      rw [e]
    · refine ⟨3, n % 10, fun tail fields prev => ?_⟩
      rw [formatNat_three_digits n (by omega) (by omega)]
      simp only [List.cons_append, List.nil_append]
      rw [parse_digit (n / 100) (by omega) _ 0 0 fields prev (by omega) (by omega),
        parse_digit (n / 10 % 10) (by omega) _ _ _ fields _ (by omega) (by omega),
        parse_digit (n % 10) (by omega) _ _ _ fields _ (by omega) (by omega)]
      have e : ((0 * 10 + n / 100) * 10 + n / 10 % 10) * 10 + n % 10 = n := by omega
      rw [e]

/-- The IPv4 parser reads back the dotted text of four octets. -/
theorem parseIPv4_dotted (a b c k : Nat) (ha : a ≤ 255) (hb : b ≤ 255) (hc : c ≤ 255)
    (hk : k ≤ 255) :
    parseIPv4 (formatNat a ++ '.' :: (formatNat b ++ '.' :: (formatNat c ++ '.' :: formatNat k))) =
      some (Addr.v4 a b c k) := by
  obtain ⟨la, xa, hpa⟩ := parse_octet a ha
  obtain ⟨lb, xb, hpb⟩ := parse_octet b hb
  obtain ⟨lc, xc, hpc⟩ := parse_octet c hc
  obtain ⟨lk, xk, hpk⟩ := parse_octet k hk
  obtain ⟨b0, bs, hbe⟩ := List.exists_cons_of_ne_nil (formatNat_digits b (by omega)).1
  obtain ⟨c0, cs, hce⟩ := List.exists_cons_of_ne_nil (formatNat_digits c (by omega)).1
  obtain ⟨k0, ks, hke⟩ := List.exists_cons_of_ne_nil (formatNat_digits k (by omega)).1
  unfold parseIPv4
  have hfin : parseIPv4Fields (formatNat a ++ '.' :: (formatNat b ++ '.' ::
      (formatNat c ++ '.' :: formatNat k))) 0 0 [] none = some [a, b, c, k] := by
    rw [hpa]
    have s1 : '.' :: (formatNat b ++ '.' :: (formatNat c ++ '.' :: formatNat k)) =
        '.' :: b0 :: (bs ++ '.' :: (formatNat c ++ '.' :: formatNat k)) := by
      rw [hbe]; rfl
    rw [s1, parse_dot xa b0 _ a la [] (by simp)]
    have s2 : b0 :: (bs ++ '.' :: (formatNat c ++ '.' :: formatNat k)) =
        formatNat b ++ '.' :: (formatNat c ++ '.' :: formatNat k) := by
      rw [hbe]; rfl
    rw [s2, hpb]
    have s3 : '.' :: (formatNat c ++ '.' :: formatNat k) =
        '.' :: c0 :: (cs ++ '.' :: formatNat k) := by
      rw [hce]; rfl
    rw [s3, parse_dot xb c0 _ b lb _ (by simp)]
    have s4 : c0 :: (cs ++ '.' :: formatNat k) = formatNat c ++ '.' :: formatNat k := by
      rw [hce]; rfl
    rw [s4, hpc]
    have s5 : '.' :: formatNat k = '.' :: k0 :: ks := by rw [hke]
    rw [s5, parse_dot xc k0 _ c lc _ (by simp)]
    have s6 : k0 :: ks = formatNat k ++ [] := by rw [hke]; simp
    rw [s6, hpk, parseIPv4Fields]
    simp
  rw [hfin]

theorem find_separator (s rest : Str) (hs : ∀ c ∈ s, ∃ d, c = digitChar d) :
    (s ++ '.' :: rest).find? (fun c => decide (c = '.' ∨ c = ':' ∨ c = '%')) = some '.' := by
  induction s with
  | nil => simp
  | cons x xs ih =>
    obtain ⟨d, hd⟩ := hs x (by simp)
    have hx : ¬ (x = '.' ∨ x = ':' ∨ x = '%') := by
      rw [hd]; exact digitChar_no_separator d
    simp only [List.cons_append, List.find?_cons]
    have : decide (x = '.' ∨ x = ':' ∨ x = '%') = false := by simpa using hx
    rw [this]
    exact ih (fun c hc => hs c (by simp [hc]))

/-- The function `netip.ParseAddr` reads back the dotted text of four octets. -/
theorem ParseAddr_dotted (parseIPv6 : Str → Option Addr) (a b c k : Nat) (ha : a ≤ 255)
    (hb : b ≤ 255) (hc : c ≤ 255) (hk : k ≤ 255) :
    ParseAddr parseIPv6
        (formatNat a ++ '.' :: (formatNat b ++ '.' :: (formatNat c ++ '.' :: formatNat k))) =
      some (Addr.v4 a b c k) := by
  unfold ParseAddr
  rw [find_separator _ _ (formatNat_digits a (by omega)).2]
  simp only [if_true]
  exact parseIPv4_dotted a b c k ha hb hc hk

theorem splitDot_ne_nil (s : Str) : splitDot s ≠ [] := by
  induction s with
  | nil => simp [splitDot]
  | cons c cs ih =>
    rw [splitDot]
    split
    · simp
    · split <;> simp

theorem splitDot_append (s rest : Str) (hs : ∀ c ∈ s, ∃ d, c = digitChar d) :
    splitDot (s ++ '.' :: rest) = s :: splitDot rest := by
  induction s with
  | nil => simp [splitDot]
  | cons x xs ih =>
    obtain ⟨d, hd⟩ := hs x (by simp)
    have hx : x ≠ '.' := by rw [hd]; exact digitChar_ne_dot d
    rw [List.cons_append, splitDot, if_neg hx, ih (fun c hc => hs c (by simp [hc]))]

/-! ## The range built by `selectIPv4SweepRange` -/

theorem rangeLoop_dotted (parseIPv6 : Str → Option Addr) (a b c : Nat) (ha : a ≤ 255)
    (hb : b ≤ 255) (hc : c ≤ 255) :
    ∀ (remaining count : Nat) (acc : List Addr), count + remaining ≤ 256 →
      rangeLoop parseIPv6 (formatNat a ++ '.' :: (formatNat b ++ '.' :: (formatNat c ++ ['.'])))
          remaining count acc =
        Selected.range (acc ++ (List.range remaining).map fun j => Addr.v4 a b c (count + j)) := by
  intro remaining
  induction remaining with
  | zero => intro count acc _; simp [rangeLoop]
  | succ r ih =>
    intro count acc hle
    have htext : (formatNat a ++ '.' :: (formatNat b ++ '.' :: (formatNat c ++ ['.']))) ++
        Itoa (count : Int) =
        formatNat a ++ '.' :: (formatNat b ++ '.' :: (formatNat c ++ '.' :: formatNat count)) := by
      simp [Itoa_natCast, List.append_assoc]
    rw [rangeLoop, htext, ParseAddr_dotted parseIPv6 a b c count ha hb hc (by omega)]
    simp only
    rw [ih (count + 1) (acc ++ [Addr.v4 a b c count]) (by omega), List.range_succ_eq_map]
    simp only [List.map_cons, List.map_map, List.append_assoc, List.singleton_append,
      Nat.add_zero]
    congr 3
    apply List.map_congr_left
    intro j _
    simp only [Function.comp, Nat.succ_eq_add_one]
    congr 1
    omega

theorem prefix_format_eq (a b c d bits : Nat) :
    Prefix.format { addr := Addr.v4 a b c d, bits := bits } =
      formatNat a ++ '.' :: (formatNat b ++ '.' :: (formatNat c ++ '.' ::
        (formatNat d ++ '/' :: formatNat bits))) := by
  simp [Prefix.format, Addr.format, List.append_assoc]

/-- The range construction on the text of an IPv4 prefix. -/
theorem sweepRange_dotted (parseIPv6 : Str → Option Addr) (menu : List Str) (i : Nat)
    (a b c d bits : Nat) (ha : a ≤ 255) (hb : b ≤ 255) (hc : c ≤ 255)
    (hentry : menu[i]? = some (Prefix.format { addr := Addr.v4 a b c d, bits := bits })) :
    sweepRange parseIPv6 menu (i : Int) =
      Selected.range ((List.range 254).map fun k => Addr.v4 a b c (k + 1)) := by
  have hneg : ¬ ((i : Int) < 0) := by omega
  have hsplit : splitDot (Prefix.format { addr := Addr.v4 a b c d, bits := bits }) =
      formatNat a :: formatNat b :: formatNat c ::
        splitDot (formatNat d ++ '/' :: formatNat bits) := by
    rw [prefix_format_eq, splitDot_append _ _ (formatNat_digits a (by omega)).2,
      splitDot_append _ _ (formatNat_digits b (by omega)).2,
      splitDot_append _ _ (formatNat_digits c (by omega)).2]
  unfold sweepRange
  simp only [if_neg hneg, Int.toNat_ofNat, hentry, hsplit, List.length_cons]
  have hlen : ¬ ((splitDot (formatNat d ++ '/' :: formatNat bits)).length + 1 + 1 + 1 < 3) := by
    omega
  rw [if_neg hlen]
  have htake : List.take 3 (formatNat a :: formatNat b :: formatNat c ::
      splitDot (formatNat d ++ '/' :: formatNat bits)) =
      [formatNat a, formatNat b, formatNat c] := by
    simp
  have hjoin : joinDot [formatNat a, formatNat b, formatNat c] ++ ['.'] =
      formatNat a ++ '.' :: (formatNat b ++ '.' :: (formatNat c ++ ['.'])) := by
    simp [joinDot, List.append_assoc]
  have hf : (fun j => Addr.v4 a b c (1 + j)) = fun k => Addr.v4 a b c (k + 1) := by
    funext j
    rw [Nat.add_comm]
  rw [htake, hjoin, rangeLoop_dotted parseIPv6 a b c ha hb hc 254 1 [] (by omega),
    List.nil_append, hf]

theorem judge_accept (menu : List Str) (line : Str) (i : Nat) (hparse : Atoi line = some (i : Int))
    (hi : i < menu.length) : judge menu (some line) = Except.ok (i : Int) := by
  have : ¬ ((menu.length : Int) - 1 < (i : Int)) := by omega
  simp [judge, hparse, this]

theorem contains_of_short_prefix (a b c d bits k : Nat) (hd : d ≤ 255) (hk : k ≤ 255)
    (hbits : bits ≤ 24) : containsV4 a b c d bits (Addr.v4 a b c k) = true := by
  have hm : 2 ^ (32 - bits) = 256 * 2 ^ (24 - bits) := by
    have : 32 - bits = 8 + (24 - bits) := by omega
    rw [this, pow_add]
    norm_num
  have key : ∀ x, x ≤ 255 →
      ipv4Value a b c x / (256 * 2 ^ (24 - bits)) =
        (a * 65536 + b * 256 + c) / 2 ^ (24 - bits) := by
    intro x hx
    rw [← Nat.div_div_eq_div_mul]
    congr 1
    unfold ipv4Value
    omega
  simp only [containsV4, hm, key k hk, key d hd, decide_True]

/-- Claim C5, refuted as stated for prefixes longer than /24: the prefix
192.168.1.128/25 has its host bits zero, the range built from it is
192.168.1.1 .. 192.168.1.254, and its first address 192.168.1.1 lies outside
the prefix. -/
theorem range_leaves_longer_prefix :
    ipv4Value 192 168 1 128 % 2 ^ (32 - 25) = 0 ∧
    sweepRange (fun _ => none) ["192.168.1.128/25".toList] 0 =
      Selected.range ((List.range 254).map fun k => Addr.v4 192 168 1 (k + 1)) ∧
    Addr.v4 192 168 1 1 ∈ (List.range 254).map (fun k => Addr.v4 192 168 1 (k + 1)) ∧
    containsV4 192 168 1 128 25 (Addr.v4 192 168 1 1) = false := by
  refine ⟨by decide, ?_, ?_, by decide⟩
  · exact sweepRange_dotted (fun _ => none) ["192.168.1.128/25".toList] 0 192 168 1 128 25
      (by decide) (by decide) (by decide) (by decide)
  · exact List.mem_map.mpr ⟨0, by simp, rfl⟩

/-- Claim C5, amended: for every IPv4 prefix `a.b.c.d/bits` in the menu (of any
prefix length, host bits zero or not), selecting it makes the range
construction return, without error, exactly 254 addresses in ascending order,
the k-th (k = 1..254) being the first three octets of the prefix's address
followed by k; every returned address lies inside the prefix's network when
the prefix length is at most 24. -/
theorem sweep_range_of_prefix (parseIPv6 : Str → Option Addr) (menu : List Str) (i : Nat)
    (a b c d bits : Nat) (ha : a ≤ 255) (hb : b ≤ 255) (hc : c ≤ 255) (hd : d ≤ 255)
    (hentry : menu[i]? = some (Prefix.format { addr := Addr.v4 a b c d, bits := bits })) :
    sweepRange parseIPv6 menu (i : Int) =
      Selected.range ((List.range 254).map fun k => Addr.v4 a b c (k + 1)) ∧
    (∀ line rest, Atoi line = some (i : Int) →
      selectIPv4SweepRange parseIPv6 menu (some line :: rest) =
        ([Output.menu menu],
         Selected.range ((List.range 254).map fun k => Addr.v4 a b c (k + 1)))) ∧
    ((List.range 254).map fun k => Addr.v4 a b c (k + 1)).length = 254 ∧
    (∀ k, k < 254 →
      ((List.range 254).map fun k => Addr.v4 a b c (k + 1))[k]? = some (Addr.v4 a b c (k + 1))) ∧
    (bits ≤ 24 → ∀ ip ∈ (List.range 254).map (fun k => Addr.v4 a b c (k + 1)),
      containsV4 a b c d bits ip = true) := by
  have hrange := sweepRange_dotted parseIPv6 menu i a b c d bits ha hb hc hentry
  have hi : i < menu.length := (List.getElem?_eq_some_iff.mp hentry).1
  refine ⟨hrange, ?_, by simp, ?_, ?_⟩
  · intro line rest hparse
    simp [selectIPv4SweepRange, judge_accept menu line i hparse hi, hrange]
  · intro k hk
    simp [hk]
  · intro hbits ip hip
    obtain ⟨k, hk, rfl⟩ := List.mem_map.mp hip
    have hk' : k < 254 := List.mem_range.mp hk
    exact contains_of_short_prefix a b c d bits (k + 1) hd (by omega) hbits

theorem sweep_range_of_prefix_witness :
    (10 ≤ 255 ∧ 0 ≤ 255) ∧
    ["192.168.1.0/24".toList, "10.0.0.0/8".toList][1]? =
      some (Prefix.format { addr := Addr.v4 10 0 0 0, bits := 8 }) ∧
    Atoi "1".toList = some ((1 : Nat) : Int) ∧
    (sweepRange (fun _ => none) ["192.168.1.0/24".toList, "10.0.0.0/8".toList] ((1 : Nat) : Int) =
      Selected.range ((List.range 254).map fun k => Addr.v4 10 0 0 (k + 1)) ∧
    (∀ line rest, Atoi line = some ((1 : Nat) : Int) →
      selectIPv4SweepRange (fun _ => none) ["192.168.1.0/24".toList, "10.0.0.0/8".toList]
          (some line :: rest) =
        ([Output.menu ["192.168.1.0/24".toList, "10.0.0.0/8".toList]],
         Selected.range ((List.range 254).map fun k => Addr.v4 10 0 0 (k + 1)))) ∧
    ((List.range 254).map fun k => Addr.v4 10 0 0 (k + 1)).length = 254 ∧
    (∀ k, k < 254 →
      ((List.range 254).map fun k => Addr.v4 10 0 0 (k + 1))[k]? =
        some (Addr.v4 10 0 0 (k + 1))) ∧
    (8 ≤ 24 → ∀ ip ∈ (List.range 254).map (fun k => Addr.v4 10 0 0 (k + 1)),
      containsV4 10 0 0 0 8 ip = true)) :=
  ⟨by decide, by decide, by decide,
    sweep_range_of_prefix (fun _ => none) ["192.168.1.0/24".toList, "10.0.0.0/8".toList] 1
      10 0 0 0 8 (by decide) (by decide) (by decide) (by decide) (by decide)⟩

end PingSweep
